import Mathlib

/-!
Verification development for the AraBul PDF-search core (src/v1_12.py).

Strings are modelled as `List Char` (one entry per Unicode scalar, like a
Python `str`).  The Python standard-library character data that `normalize`
consults (`unicodedata.category`, `unicodedata.combining`,
`unicodedata.normalize('NFKD', ...)`, `str.lower`, the `re` whitespace class
`\s`, `str.splitlines`) and the `arabic_reshaper` letter tables are embedded
as explicit finite tables, transcribed from UnicodeData.txt and from the
reshaper's letter table for a modelled repertoire of characters; characters
outside the tables behave as generic inert letters (no category among
Cf/Cc/Zs/Mn, canonical combining class 0, no compatibility decomposition,
case-invariant, not whitespace, not Arabic), which is the true behaviour of
ordinary letters, digits and punctuation.  All definitions follow the source
line by line; quantified theorems therefore speak about all strings over
this character model.
-/

namespace AraBul

/-- Unicode general categories that the model distinguishes.  `Other` stands
for every category that `normalize` never treats specially (Lu, Ll, Lo, Pd,
Po, Nd, Sm, ...) beyond the ones listed. -/
inductive UCat where
  | Cf | Cc | Zs | Mn | Pd | Lu | Ll | Lo | Other
deriving DecidableEq, BEq

/-- Table of `unicodedata.category` for the modelled repertoire
(UnicodeData.txt).  Characters absent from the table default to `Other`
(an ordinary visible character). -/
def ucatPairs : List (Char × UCat) :=
  [ (' ', .Zs), ('\t', .Cc), ('\n', .Cc), ('\r', .Cc),
    (Char.ofNat 0xAD, .Cf),    -- SOFT HYPHEN
    (Char.ofNat 0x200B, .Cf),  -- ZERO WIDTH SPACE
    (Char.ofNat 0x200F, .Cf),  -- RIGHT-TO-LEFT MARK
    (Char.ofNat 0xFEFF, .Cf),  -- ZERO WIDTH NO-BREAK SPACE (BOM)
    (Char.ofNat 0xA0, .Zs),    -- NO-BREAK SPACE
    (Char.ofNat 0x2009, .Zs),  -- THIN SPACE
    (Char.ofNat 0x3000, .Zs),  -- IDEOGRAPHIC SPACE
    (Char.ofNat 0x301, .Mn),   -- COMBINING ACUTE ACCENT
    (Char.ofNat 0x302, .Mn),   -- COMBINING CIRCUMFLEX ACCENT
    (Char.ofNat 0x307, .Mn),   -- COMBINING DOT ABOVE
    (Char.ofNat 0x308, .Mn),   -- COMBINING DIAERESIS
    (Char.ofNat 0x30A, .Mn),   -- COMBINING RING ABOVE
    (Char.ofNat 0x651, .Mn),   -- ARABIC SHADDA
    (Char.ofNat 0xE4D, .Mn),   -- THAI CHARACTER NIKHAHIT (ccc 0)
    ('-', .Pd),
    (Char.ofNat 0x2010, .Pd), (Char.ofNat 0x2011, .Pd),
    (Char.ofNat 0x2012, .Pd), (Char.ofNat 0x2013, .Pd),
    (Char.ofNat 0x2014, .Pd), (Char.ofNat 0x2015, .Pd),
    (Char.ofNat 0xFF0D, .Pd), -- FULLWIDTH HYPHEN-MINUS
    ('A', .Lu), (Char.ofNat 0xC2, .Lu),         -- 'Â'
    ('a', .Ll), ('e', .Ll),
    (Char.ofNat 0xE9, .Ll),   -- 'é'
    (Char.ofNat 0xE2, .Ll),   -- 'â'
    (Char.ofNat 0x131, .Ll),  -- 'ı' LATIN SMALL LETTER DOTLESS I
    (Char.ofNat 0xE33, .Lo),  -- THAI CHARACTER SARA AM
    (Char.ofNat 0xE32, .Lo),  -- THAI CHARACTER SARA AA
    (Char.ofNat 0x627, .Lo),  -- ARABIC LETTER ALEF
    (Char.ofNat 0x628, .Lo),  -- ARABIC LETTER BEH
    (Char.ofNat 0xFE8D, .Lo), (Char.ofNat 0xFE8E, .Lo),  -- ALEF ISOLATED/FINAL
    (Char.ofNat 0xFE8F, .Lo), (Char.ofNat 0xFE90, .Lo),  -- BEH ISOLATED/FINAL
    (Char.ofNat 0xFE91, .Lo), (Char.ofNat 0xFE92, .Lo) ] -- BEH INITIAL/MEDIAL

/-- `unicodedata.category`, restricted to the distinctions the source uses. -/
def ucat (c : Char) : UCat :=
  (((ucatPairs.find? (fun p => p.1 == c)).map Prod.snd).getD .Other)

/-- The condition of the first filtering step of `normalize` (line 203 of the
source): character categories Cf, Cc, Zs, Mn, with a plain space exempted. -/
def removable1 (c : Char) : Bool :=
  (ucat c == .Cf || ucat c == .Cc || ucat c == .Zs || ucat c == .Mn) && c != ' '

/-- Table of `unicodedata.combining` (canonical combining class) for the
modelled repertoire; characters absent from the table have class 0. -/
def combiningPairs : List (Char × Nat) :=
  [ (Char.ofNat 0x301, 230), (Char.ofNat 0x302, 230),
    (Char.ofNat 0x307, 230), (Char.ofNat 0x308, 230),
    (Char.ofNat 0x30A, 230), (Char.ofNat 0x651, 33) ]

/-- True when `unicodedata.combining(c) != 0`, i.e. the NFKD filter of
`normalize` drops `c`. -/
def isCombining (c : Char) : Bool :=
  (((combiningPairs.find? (fun p => p.1 == c)).map Prod.snd).getD 0) != 0

/-- Table of the NFKD decomposition (`unicodedata.normalize('NFKD', ...)`)
for the modelled repertoire; every listed decomposition is itself in NFKD
form, and characters absent from the table decompose to themselves.  The
table deliberately includes the two kinds of compatibility decomposition
that defeat idempotence of `normalize`: spacing clones of diacritics
(U+02DA, U+00B4, U+00A8) decompose to a *space* plus a combining mark, and
U+0E33 THAI SARA AM decomposes to U+0E4D — a mark of category Mn with
canonical combining class 0, which the `combining`-based filter keeps but
the category filter of a later pass removes. -/
def nfkdPairs : List (Char × List Char) :=
  [ (Char.ofNat 0xC2, ['A', Char.ofNat 0x302]),   -- Â = A + circumflex
    (Char.ofNat 0x2DA, [' ', Char.ofNat 0x30A]),  -- ˚ RING ABOVE = space + ring
    (Char.ofNat 0xB4, [' ', Char.ofNat 0x301]),   -- ´ ACUTE ACCENT = space + acute
    (Char.ofNat 0xA8, [' ', Char.ofNat 0x308]),   -- ¨ DIAERESIS = space + diaeresis
    (Char.ofNat 0xE33, [Char.ofNat 0xE4D, Char.ofNat 0xE32]), -- ำ THAI SARA AM
    (Char.ofNat 0xE2, ['a', Char.ofNat 0x302]),   -- â = a + circumflex
    (Char.ofNat 0xE9, ['e', Char.ofNat 0x301]),   -- é = e + acute
    (Char.ofNat 0xFF0D, ['-']),                   -- fullwidth hyphen-minus
    (Char.ofNat 0xFE8D, [Char.ofNat 0x627]),
    (Char.ofNat 0xFE8E, [Char.ofNat 0x627]),
    (Char.ofNat 0xFE8F, [Char.ofNat 0x628]),
    (Char.ofNat 0xFE90, [Char.ofNat 0x628]),
    (Char.ofNat 0xFE91, [Char.ofNat 0x628]),
    (Char.ofNat 0xFE92, [Char.ofNat 0x628]) ]

/-- NFKD decomposition of one character. -/
def nfkdChar (c : Char) : List Char :=
  (((nfkdPairs.find? (fun p => p.1 == c)).map Prod.snd).getD [c])

/-- Table of `str.lower` for the modelled repertoire (on this repertoire the
mapping is one character to one character); characters absent from the table
are case-invariant. -/
def lowerPairs : List (Char × Char) :=
  [ ('A', 'a'), ('B', 'b'), ('C', 'c'), ('D', 'd'), ('E', 'e'), ('F', 'f'),
    ('G', 'g'), ('H', 'h'), ('I', 'i'), ('J', 'j'), ('K', 'k'), ('L', 'l'),
    ('M', 'm'), ('N', 'n'), ('O', 'o'), ('P', 'p'), ('Q', 'q'), ('R', 'r'),
    ('S', 's'), ('T', 't'), ('U', 'u'), ('V', 'v'), ('W', 'w'), ('X', 'x'),
    ('Y', 'y'), ('Z', 'z'),
    (Char.ofNat 0xC2, Char.ofNat 0xE2) ]  -- Â -> â

/-- Lowercasing of one character (`str.lower`). -/
def lowerChar (c : Char) : Char :=
  (((lowerPairs.find? (fun p => p.1 == c)).map Prod.snd).getD c)

/-- Whitespace in the sense of Python's `re` class `\s` and `str.strip()`,
for the modelled repertoire. -/
def pyWhite (c : Char) : Bool :=
  c == ' ' || c == '\t' || c == '\n' || c == '\r' ||
  c == Char.ofNat 0xA0 || c == Char.ofNat 0x2009 || c == Char.ofNat 0x3000

/-- The source's HYPHENS catalogue (lines 185-194), in source order. -/
def HYPHENS : List Char :=
  [ Char.ofNat 0xAD, '-',
    Char.ofNat 0x2010, Char.ofNat 0x2011, Char.ofNat 0x2012,
    Char.ofNat 0x2013, Char.ofNat 0x2014, Char.ofNat 0x2015 ]

/-- Joining data of the two modelled Arabic letters for
`arabic_reshaper.reshape`: `(dual-joining?, isolated, final, initial,
medial)`.  ALEF is right-joining, so its initial/medial slots are never
selected (they repeat the isolated/final forms).  Harakat deletion, the
reshaper's only other default behaviour relevant here, is vacuous inside
`normalize` because the category filter has already removed all Mn marks. -/
def arabPairs : List (Char × (Bool × Char × Char × Char × Char)) :=
  [ (Char.ofNat 0x628,  -- BEH, dual-joining
     (true, Char.ofNat 0xFE8F, Char.ofNat 0xFE90,
      Char.ofNat 0xFE91, Char.ofNat 0xFE92)),
    (Char.ofNat 0x627,  -- ALEF, right-joining
     (false, Char.ofNat 0xFE8D, Char.ofNat 0xFE8E,
      Char.ofNat 0xFE8D, Char.ofNat 0xFE8E)) ]

/-- Joining class of a character: `some true` for a dual-joining Arabic
letter, `some false` for a right-joining one, `none` for anything else
(which also interrupts cursive joining). -/
def arabJoin (c : Char) : Option Bool :=
  ((arabPairs.find? (fun p => p.1 == c)).map (fun p => p.2.1))

/-- The presentation form selected for an Arabic letter `c` that connects
with the previous letter iff `jp` and with the next iff `jn`. -/
def arabForm (c : Char) (jp jn : Bool) : Char :=
  match arabPairs.find? (fun p => p.1 == c) with
  | some (_, _, iso, fin, ini, med) =>
      if jp then (if jn then med else fin) else (if jn then ini else iso)
  | none => c

/-- Core of `arabic_reshaper.reshape`: each Arabic letter is replaced by the
contextual presentation form determined by its neighbours.  `pd` records
whether the previous character offers a forward connection (it is a
dual-joining Arabic letter); a letter connects to the next one iff it is
dual-joining and the next character is an Arabic letter. -/
def reshapeGo (pd : Bool) : List Char → List Char
  | [] => []
  | c :: rest =>
    match arabJoin c with
    | none => c :: reshapeGo false rest
    | some dual =>
      let jn := dual && (match rest.head? with
                         | some d => (arabJoin d).isSome
                         | none => false)
      arabForm c pd jn :: reshapeGo dual rest

/-- `arabic_reshaper.reshape` (line 217 of the source). -/
def reshape (s : List Char) : List Char := reshapeGo false s

/-- Deletion of every occurrence of one character: Python
`str.replace(h, '')` for a one-character needle. -/
def removeChar (s : List Char) (h : Char) : List Char :=
  s.filter (fun c => c != h)

/-- The regex substitution of line 208,
`re.sub(r'Â\xad\n|-\n|\n', '', result)`: the pattern's first alternative is
U+00C2, U+00AD, `\n` (the file's literal bytes), tried before `-\n` and
`\n`, scanning left to right and resuming after each deletion. -/
def reSubGo : Nat → List Char → List Char
  | 0, s => s
  | fuel + 1, s =>
    match s with
    | c1 :: c2 :: c3 :: rest =>
      if c1 = Char.ofNat 0xC2 ∧ c2 = Char.ofNat 0xAD ∧ c3 = '\n' then
        reSubGo fuel rest
      else if c1 = '-' ∧ c2 = '\n' then reSubGo fuel (c3 :: rest)
      else if c1 = '\n' then reSubGo fuel (c2 :: c3 :: rest)
      else c1 :: reSubGo fuel (c2 :: c3 :: rest)
    | [c1, c2] =>
      if c1 = '-' ∧ c2 = '\n' then []
      else if c1 = '\n' then reSubGo fuel [c2]
      else c1 :: reSubGo fuel [c2]
    | [c1] => if c1 = '\n' then [] else [c1]
    | [] => []

/-- See `reSubGo`; the fuel starts at the string length, and every step of
the scan consumes at least one character, so the fuel never runs out. -/
def reSubLine (s : List Char) : List Char := reSubGo s.length s

/-- Replacement of each maximal run of `\s` characters by one space
(`re.sub(r'\s+', ' ', result)`); `pw` records whether the previous character
was whitespace (i.e. the run is already represented). -/
def squeezeGo (pw : Bool) : List Char → List Char
  | [] => []
  | c :: rest =>
    if pyWhite c then
      (if pw then squeezeGo true rest else ' ' :: squeezeGo true rest)
    else c :: squeezeGo false rest

/-- Python `str.strip()`: removal of leading and trailing whitespace. -/
def pyStrip (s : List Char) : List Char :=
  ((s.dropWhile pyWhite).reverse.dropWhile pyWhite).reverse

/-- Lines 209-210 of the source: whitespace-run collapse followed by strip. -/
def collapseWs (s : List Char) : List Char :=
  pyStrip (squeezeGo false s)

/-- Lines 211-213: NFKD decomposition followed by removal of every character
with nonzero combining class. -/
def deaccent (s : List Char) : List Char :=
  (s.flatMap nfkdChar).filter (fun c => !isCombining c)

/-- `normalize` (source lines 196-219), with the source's default flags. -/
def normalize (text : List Char)
    (lowercase : Bool := true)
    (remove_accents : Bool := true)
    (remove_whitespaces : Bool := true) : List Char :=
  if text = [] then []
  else
    let r1 := text.filter (fun c => !removable1 c)
    let r2 := HYPHENS.foldl removeChar r1
    let r3 := removeChar (removeChar (removeChar r2 (Char.ofNat 0xAD))
                (Char.ofNat 0xFEFF)) (Char.ofNat 0x200F)
    let r4 := reSubLine r3
    let r5 := if remove_whitespaces then collapseWs r4 else r4
    let r6 := if remove_accents then deaccent r5 else r5
    let r7 := if lowercase then r6.map lowerChar else r6
    reshape r7

/-- True when `pat` is an initial segment of `s` (character-wise). -/
def startsWithList : List Char → List Char → Bool
  | [], _ => true
  | _ :: _, [] => false
  | p :: ps, c :: cs => p == c && startsWithList ps cs

/-- Python `hay.find(pat)`: index of the first occurrence of `pat` in `hay`,
`none` standing for Python's `-1`.  As in Python, the empty pattern is found
at index 0 of every string. -/
def strFind (hay pat : List Char) : Option Nat :=
  if startsWithList pat hay then some 0
  else
    match hay with
    | [] => none
    | _ :: t => (strFind t pat).map (· + 1)

/-- Python `pat in hay` (contiguous substring containment). -/
def containsSub (hay pat : List Char) : Bool :=
  (strFind hay pat).isSome

/-- Helper of `pySplit`: accumulates the current (reversed) token. -/
def pySplitGo (cur : List Char) : List Char → List (List Char)
  | [] => if cur = [] then [] else [cur.reverse]
  | c :: rest =>
    if pyWhite c then
      (if cur = [] then pySplitGo [] rest else cur.reverse :: pySplitGo [] rest)
    else pySplitGo (c :: cur) rest

/-- Python `str.split()` with no argument: split on runs of whitespace,
discarding empty tokens. -/
def pySplit (s : List Char) : List (List Char) := pySplitGo [] s

/-- Python `' '.join(...)`. -/
def joinSpace (ts : List (List Char)) : List Char :=
  match ts with
  | [] => []
  | t :: rest => t ++ (rest.flatMap (fun u => ' ' :: u))

/-- Helper of `pySplitlines`: accumulates the current (reversed) line; a
line break followed by nothing closes the final line without opening an
empty one (Python's trailing-newline rule). -/
def splitlinesGo : List Char → List Char → List (List Char)
  | acc, [] => [acc.reverse]
  | acc, '\r' :: '\n' :: [] => [acc.reverse]
  | acc, '\r' :: '\n' :: c :: rest => acc.reverse :: splitlinesGo [] (c :: rest)
  | acc, '\n' :: [] => [acc.reverse]
  | acc, '\n' :: c :: rest => acc.reverse :: splitlinesGo [] (c :: rest)
  | acc, '\r' :: [] => [acc.reverse]
  | acc, '\r' :: c :: rest => acc.reverse :: splitlinesGo [] (c :: rest)
  | acc, c :: rest => splitlinesGo (c :: acc) rest

/-- Python `str.splitlines()` for the modelled repertoire (line boundaries
`\n`, `\r`, `\r\n`). -/
def pySplitlines : List Char → List (List Char)
  | [] => []
  | c :: rest => splitlinesGo [] (c :: rest)

/-- Python `word.endswith(HYPHENS)`: the word ends with some catalogue
hyphen (checked on the raw, non-normalized string). -/
def endsWithAny (w : List Char) : Bool :=
  match w.getLast? with
  | some c => HYPHENS.contains c
  | none => false

/-- `bond_hyphenated_words` (source lines 221-230).  The source's in-place
while loop is rendered as structural recursion: while the word at the
current position ends with a catalogue hyphen, it absorbs the next word
(dropping the trailing hyphen, keeping the first word's rectangle) and the
merged entry is re-examined; otherwise the scan advances.  The last element
is never examined (`i < len(words) - 1`).  Entries before the current
position are never revisited or modified by the loop, so the recursion
computes the same list. -/
def bondGo {α : Type} : Nat → List (List Char × α) → List (List Char × α)
  | 0, l => l
  | fuel + 1, (w, r) :: (w2, r2) :: rest =>
    if endsWithAny w then bondGo fuel ((w.dropLast ++ w2, r) :: rest)
    else (w, r) :: bondGo fuel ((w2, r2) :: rest)
  | _ + 1, l => l

/-- See `bondGo`; the fuel starts at the list length, and each step shortens
the list by one, so the fuel never runs out. -/
def bond_hyphenated_words {α : Type} (words : List (List Char × α)) :
    List (List Char × α) :=
  bondGo words.length words

/-- `os.path.basename` for a POSIX-style path. -/
def basename (p : List Char) : List Char :=
  p.foldl (fun acc c => if c = '/' then [] else acc ++ [c]) []

/-- Outcome of the two per-page extraction calls of the PDF collaborator:
`page.get_text("text")` and `page.get_text("words")`.  `Except Unit`
models "returned normally" versus "raised".  Rectangles are an arbitrary
type `α`: the source only ever carries them along (`pymupdf.Rect` values),
never inspects them. -/
structure PageData (α : Type) where
  text : Except Unit (List Char)
  words : Except Unit (List (List Char × α))

/-- One entry of the list returned by `search_text_in_pdf`:
`(os.path.basename(pdf_path), page.number + 1, rects, snippet)`. -/
structure MatchRec (α : Type) where
  src : List Char
  page : Nat
  rects : List α
  snippet : List Char
deriving DecidableEq

/-- `get_pdf_text` (source lines 237-245): a raised extraction error is
caught and logged and the empty string is returned. -/
def get_pdf_text {α : Type} (pg : PageData α) : List Char :=
  match pg.text with
  | .ok t => t
  | .error _ => []

/-- The per-page body of `search_text_in_pdf` (source lines 266-291) for the
page with 1-based number `pageNo`, given the already-normalized search term
`term`.  A failing words extraction is caught and the page skipped (lines
280-284); the number of windows `word_blocks.length + 1 - n` equals
Python's `range(len(word_blocks) - n + 1)` (empty when `n` exceeds the
number of word blocks, thanks to truncated subtraction). -/
def pageMatches {α : Type} (srcName : List Char) (pageNo : Nat)
    (pg : PageData α) (term : List Char) (exact_match : Bool) :
    List (MatchRec α) :=
  let raw := get_pdf_text pg
  let page_text := normalize raw
  match strFind page_text term with
  | none => []
  | some index =>
    let start := index - 30
    let stop := index + term.length + 30
    let snippet := "...".data ++ ((raw.drop start).take (stop - start)) ++ "...".data
    match pg.words with
    | .error _ => []
    | .ok ws =>
      let word_blocks := bond_hyphenated_words ws
      let n := (pySplit term).length
      (List.range (word_blocks.length + 1 - n)).filterMap (fun i =>
        let window := (word_blocks.drop i).take n
        let seq := joinSpace (window.map (fun w => normalize w.1))
        if (if exact_match then term = seq else containsSub seq term = true)
        then some ⟨srcName, pageNo, window.map (fun w => w.2),
                   joinSpace (pySplitlines snippet)⟩
        else none)

/-- `search_text_in_pdf` (source lines 260-292).  The document is the
outcome of `pymupdf.open` plus page iteration: `.error` when opening or
processing the document raises.  Because of the `@handle_exception`
decorator such an exception is caught at the wrapper, a message box is
shown, and the wrapper returns `None` — modelled as `none`; a successful
scan returns the per-page matches in page order. -/
def search_text_in_pdf {α : Type} (pdf_path : List Char)
    (doc : Except Unit (List (PageData α)))
    (search_term : List Char) (exact_match : Bool) :
    Option (List (MatchRec α)) :=
  match doc with
  | .error _ => none
  | .ok pages =>
    let term := normalize search_term
    some (pages.enum.flatMap (fun ip =>
      pageMatches (basename pdf_path) (ip.1 + 1) ip.2 term exact_match))

/-- The status message written by `_finish_search` (source line 624):
the match count, or "no matches found" when the total is zero. -/
def finishMsg (total : Nat) : String :=
  if total > 0 then toString total ++ " eşleşme bulundu." else "Eşleşme bulunamadı."

/-- The status message written by `_run_search` when the folder holds no PDF
files (source lines 585-586). -/
def noPdfMsg : String := "Seçili dizinde herhangi bir PDF dosyası bulunamadı."

/-- The status message written by `cancel_search` (source line 576) at the
moment the user presses the cancel button.  It is written before the worker
observes the flag, so any later `_finish_search` write overwrites it. -/
def cancelMsg : String := "İptal edildi."

/-- Observable outcome of one `_run_search` worker run.  `labels` is the
sequence of `count_label` texts written by the worker (in `root.after`
queue order, which is the order the worker posts them); `results` is
`self.results` when the worker stops; `crashed` records an uncaught
exception killing the worker thread (in which case `_finish_search` never
runs); `finished` records that `_finish_search` ran. -/
structure RunOut (α : Type) where
  labels : List String
  results : List (List Char × Nat × List α × List Char)
  total : Nat
  crashed : Bool
  finished : Bool
deriving DecidableEq

/-- The inner result-emission loop of `_run_search` (source lines 606-613):
before each match is counted and appended, the cancellation flag is read
(one poll, at index `polls`); an observed flag breaks out of the loop,
discarding the remaining matches of the current document.  Returns the
updated poll counter, total and result list. -/
def emitLoop {α : Type} (cancel : Nat → Bool) (path : List Char) :
    Nat → Nat → List (List Char × Nat × List α × List Char) →
    List (MatchRec α) → Nat × Nat × List (List Char × Nat × List α × List Char)
  | polls, total, acc, [] => (polls, total, acc)
  | polls, total, acc, m :: ms =>
    if cancel polls then (polls + 1, total, acc)
    else emitLoop cancel path (polls + 1) (total + 1)
           (acc ++ [(path, m.page, m.rects, m.snippet)]) ms

/-- The document loop of `_run_search` (source lines 596-621).  At the top
of each document iteration the cancellation flag is read (one poll); an
observed flag breaks the loop and `_finish_search` runs.  A document whose
`search_text_in_pdf` call returned `None` (its open raised inside the
`@handle_exception` wrapper) makes the `for ... in matches` iteration raise
`TypeError`; that exception is outside the `try` block around the call, so
it is uncaught and the worker thread dies: no further document is processed
and `_finish_search` never runs. -/
def runLoop {α : Type} (term : List Char) (exact_match : Bool)
    (cancel : Nat → Bool) :
    Nat → Nat → List (List Char × Nat × List α × List Char) →
    List (List Char × Except Unit (List (PageData α))) → RunOut α
  | _, total, acc, [] => ⟨[finishMsg total], acc, total, false, true⟩
  | polls, total, acc, (path, doc) :: rest =>
    if cancel polls then ⟨[finishMsg total], acc, total, false, true⟩
    else
      match search_text_in_pdf path doc term exact_match with
      | none => ⟨[], acc, total, true, false⟩
      | some ms =>
        let st := emitLoop cancel path (polls + 1) total acc ms
        runLoop term exact_match cancel st.1 st.2.1 st.2.2 rest

/-- `_run_search` (source lines 580-621) together with `_finish_search`
(lines 623-629).  `docs` is the list returned by `get_pdf_files` paired
with each document's open/scan outcome; `res0` is the content of
`self.results` left over from the previous search.  When the folder holds
no PDFs the worker posts the no-documents message and then
`_finish_search(0)`, whose own message overwrites it on the label — and
`self.results` is not cleared in that branch.  Otherwise the results are
cleared and the document loop runs. -/
def runSearch {α : Type} (docs : List (List Char × Except Unit (List (PageData α))))
    (term : List Char) (exact_match : Bool) (cancel : Nat → Bool)
    (res0 : List (List Char × Nat × List α × List Char)) : RunOut α :=
  match docs with
  | [] => ⟨[noPdfMsg, finishMsg 0], res0, 0, false, true⟩
  | _ :: _ => runLoop term exact_match cancel 0 0 [] docs

/-- The full match stream of a session: every document's matches in
document order (defined only when every document scan succeeds). -/
def fullStream {α : Type}
    (docs : List (List Char × Except Unit (List (PageData α))))
    (term : List Char) (exact_match : Bool) :
    List (List Char × Nat × List α × List Char) :=
  docs.flatMap (fun pd =>
    ((search_text_in_pdf pd.1 pd.2 term exact_match).getD []).map
      (fun m => (pd.1, m.page, m.rects, m.snippet)))

/-! Helper lemmas shared by several claims. -/

theorem filterMap_ite_eq_filter_map {β γ : Type} (p : β → Prop) [DecidablePred p]
    (f : β → γ) (l : List β) :
    l.filterMap (fun x => if p x then some (f x) else none) =
      (l.filter (fun x => decide (p x))).map f := by
  induction l with
  | nil => rfl
  | cons a l ih =>
    by_cases h : p a <;> simp [List.filterMap_cons, List.filter_cons, h, ih]

theorem mem_pageMatches_elim {α : Type} (srcName : List Char) (pageNo : Nat)
    (pg : PageData α) (term : List Char) (em : Bool) (m : MatchRec α)
    (hm : m ∈ pageMatches srcName pageNo pg term em) :
    ∃ index ws, strFind (normalize (get_pdf_text pg)) term = some index ∧
      pg.words = .ok ws ∧
      ∃ i < (bond_hyphenated_words ws).length + 1 - (pySplit term).length,
        m = ⟨srcName, pageNo,
             (((bond_hyphenated_words ws).drop i).take (pySplit term).length).map
               (fun w => w.2),
             joinSpace (pySplitlines ("...".data ++
               (((get_pdf_text pg).drop (index - 30)).take
                 ((index + term.length + 30) - (index - 30))) ++ "...".data))⟩ := by
  simp only [pageMatches] at hm
  split at hm
  · simp at hm
  · rename_i index hfind
    split at hm
    · simp at hm
    · rename_i ws hws
      rw [List.mem_filterMap] at hm
      obtain ⟨i, hi, hfi⟩ := hm
      refine ⟨index, ws, hfind, hws, i, List.mem_range.mp hi, ?_⟩
      split at hfi
      all_goals split at hfi
      all_goals
        first
          | exact ((Option.some.injEq _ _).mp hfi).symm
          | cases hfi

theorem bondGo_cons_cons {α : Type} (fuel : Nat) (w : List Char) (r : α)
    (w2 : List Char) (r2 : α) (rest : List (List Char × α)) :
    bondGo (fuel + 1) ((w, r) :: (w2, r2) :: rest) =
      if endsWithAny w then bondGo fuel ((w.dropLast ++ w2, r) :: rest)
      else (w, r) :: bondGo fuel ((w2, r2) :: rest) := rfl

theorem bond_cons_hyphen {α : Type} (w : List Char) (r : α)
    (w2 : List Char) (r2 : α) (rest : List (List Char × α))
    (h : endsWithAny w = true) :
    bond_hyphenated_words ((w, r) :: (w2, r2) :: rest) =
      bond_hyphenated_words ((w.dropLast ++ w2, r) :: rest) := by
  show bondGo (((w, r) :: (w2, r2) :: rest).length) _ = _
  rw [List.length_cons, List.length_cons, bondGo_cons_cons, if_pos h]
  rfl

theorem bond_cons_nohyphen {α : Type} (w : List Char) (r : α)
    (w2 : List Char) (r2 : α) (rest : List (List Char × α))
    (h : endsWithAny w = false) :
    bond_hyphenated_words ((w, r) :: (w2, r2) :: rest) =
      (w, r) :: bond_hyphenated_words ((w2, r2) :: rest) := by
  show bondGo (((w, r) :: (w2, r2) :: rest).length) _ = _
  rw [List.length_cons, List.length_cons, bondGo_cons_cons, if_neg (by simp [h])]
  rfl

/-- CLAIM C3: `bond_hyphenated_words` merges each word whose raw text ends
with a hyphen-catalogue character with the immediately following word — the
merged text is the first word's text minus its final character concatenated
with the next word's text, the merged entry keeps the first word's bounding
box and is re-examined, so chained multi-fragment bonding occurs; a word
not ending in a catalogue hyphen is kept and the scan advances.  In
particular `["inter-", "national"]` bonds to the single run
`"international"` carrying the first fragment's box, and
`["a-", "b-", "c"]` chains to `"abc"`. -/
theorem c3_bond_hyphenated_words :
    (∀ (α : Type) (w w2 : List Char) (r r2 : α) (rest : List (List Char × α)),
       endsWithAny w = true →
       bond_hyphenated_words ((w, r) :: (w2, r2) :: rest) =
         bond_hyphenated_words ((w.dropLast ++ w2, r) :: rest)) ∧
    (∀ (α : Type) (w w2 : List Char) (r r2 : α) (rest : List (List Char × α)),
       endsWithAny w = false →
       bond_hyphenated_words ((w, r) :: (w2, r2) :: rest) =
         (w, r) :: bond_hyphenated_words ((w2, r2) :: rest)) ∧
    (∀ r1 r2 : Nat,
       bond_hyphenated_words [("inter-".data, r1), ("national".data, r2)] =
         [("international".data, r1)]) ∧
    (∀ r1 r2 r3 : Nat,
       bond_hyphenated_words [("a-".data, r1), ("b-".data, r2), ("c".data, r3)] =
         [("abc".data, r1)]) := by
  refine ⟨?_, ?_, ?_, ?_⟩
  · intro α w w2 r r2 rest h
    exact bond_cons_hyphen w r w2 r2 rest h
  · intro α w w2 r r2 rest h
    exact bond_cons_nohyphen w r w2 r2 rest h
  · intro r1 r2
    rw [bond_cons_hyphen _ _ _ _ _ (by decide),
        show "inter-".data.dropLast ++ "national".data = "international".data
          from by decide]
    rfl
  · intro r1 r2 r3
    rw [bond_cons_hyphen _ _ _ _ _ (by decide),
        show "a-".data.dropLast ++ "b-".data = "ab-".data from by decide,
        bond_cons_hyphen _ _ _ _ _ (by decide),
        show "ab-".data.dropLast ++ "c".data = "abc".data from by decide]
    rfl

/-- Witness for C3 at the spec's own example. -/
theorem c3_bond_hyphenated_words_witness :
    endsWithAny "inter-".data = true ∧
    bond_hyphenated_words [("inter-".data, (0 : Nat)), ("national".data, 1)] =
      bond_hyphenated_words [("inter-".data.dropLast ++ "national".data, (0 : Nat))] :=
  ⟨by decide,
   c3_bond_hyphenated_words.1 Nat "inter-".data "national".data 0 1 [] (by decide)⟩

/-- CLAIM C4: every match record emitted by `search_text_in_pdf` carries
exactly as many rectangles as the normalized search term has
whitespace-delimited tokens. -/
theorem c4_rect_count {α : Type} (pdf_path : List Char)
    (doc : Except Unit (List (PageData α))) (search_term : List Char)
    (em : Bool) (ms : List (MatchRec α)) (m : MatchRec α)
    (hms : search_text_in_pdf pdf_path doc search_term em = some ms)
    (hm : m ∈ ms) :
    m.rects.length = (pySplit (normalize search_term)).length := by
  rcases doc with e | pages
  · simp [search_text_in_pdf] at hms
  · simp only [search_text_in_pdf, Option.some.injEq] at hms
    subst hms
    rw [List.mem_flatMap] at hm
    obtain ⟨ip, _, hmem⟩ := hm
    obtain ⟨index, ws, _, _, i, hi, hrec⟩ := mem_pageMatches_elim _ _ _ _ _ _ hmem
    subst hrec
    simp only [List.length_map, List.length_take, List.length_drop]
    omega

/-- Witness for C4: the spec's two-token example `"machine learning"`
yields a match with exactly 2 rectangles. -/
theorem c4_rect_count_witness :
    (search_text_in_pdf "d.pdf".data
        (.ok [⟨.ok "machine learning rocks".data,
               .ok [("machine".data, (0 : Nat)), ("learning".data, 1),
                    ("rocks".data, 2)]⟩])
        "machine learning".data true =
      some [⟨"d.pdf".data, 1, [0, 1], "...machine learning rocks...".data⟩]) ∧
    (⟨"d.pdf".data, 1, [0, 1], "...machine learning rocks...".data⟩ :
        MatchRec Nat).rects.length =
      (pySplit (normalize "machine learning".data)).length :=
  ⟨by decide,
   c4_rect_count "d.pdf".data
     (.ok [⟨.ok "machine learning rocks".data,
            .ok [("machine".data, (0 : Nat)), ("learning".data, 1),
                 ("rocks".data, 2)]⟩])
     "machine learning".data true
     [⟨"d.pdf".data, 1, [0, 1], "...machine learning rocks...".data⟩]
     ⟨"d.pdf".data, 1, [0, 1], "...machine learning rocks...".data⟩
     (by decide) (by decide)⟩

theorem strFind_nil_pat (hay : List Char) : strFind hay [] = some 0 := by
  cases hay <;> simp [strFind, startsWithList]

theorem length_filterMap_some {β γ : Type} (f : β → γ) (l : List β) :
    (l.filterMap (fun x => some (f x))).length = l.length := by
  induction l with
  | nil => rfl
  | cons a l ih => simp [List.filterMap_cons, ih]

/-- CLAIM C9: a search term that normalizes to the empty string is found at
index 0 of every normalized page text, and on every page whose text and
words extract successfully the per-page search emits one match per window
position — `(number of bonded word runs) + 1` matches, each with an empty
rectangle list — in both exact-match and substring modes. -/
theorem c9_empty_normalized_term {α : Type} (srcName : List Char)
    (pageNo : Nat) (raw : List Char) (ws : List (List Char × α))
    (search_term : List Char) (em : Bool)
    (h : normalize search_term = []) :
    strFind (normalize raw) (normalize search_term) = some 0 ∧
    (pageMatches srcName pageNo ⟨.ok raw, .ok ws⟩ (normalize search_term)
        em).length = (bond_hyphenated_words ws).length + 1 ∧
    ∀ m ∈ pageMatches srcName pageNo ⟨.ok raw, .ok ws⟩ (normalize search_term)
        em, m.rects = [] := by
  rw [h]
  refine ⟨strFind_nil_pat _, ?_, ?_⟩
  · simp only [pageMatches, get_pdf_text, strFind_nil_pat]
    cases em <;>
      simp [containsSub, strFind_nil_pat, joinSpace, pySplit, pySplitGo,
            length_filterMap_some, List.length_range]
  · intro m hm
    obtain ⟨index, ws', _, hws, i, _, hrec⟩ := mem_pageMatches_elim _ _ _ _ _ _ hm
    subst hrec
    simp [pySplit, pySplitGo]

/-- Witness for C9: the term `"-"` normalizes to the empty string; a page
with two word runs yields 3 matches, all with empty rectangle lists. -/
theorem c9_empty_normalized_term_witness :
    normalize "-".data = [] ∧
    (strFind (normalize "ab cd".data) (normalize "-".data) = some 0 ∧
     (pageMatches "d".data 1
        (⟨.ok "ab cd".data, .ok [("ab".data, (0 : Nat)), ("cd".data, 1)]⟩)
        (normalize "-".data) false).length =
       (bond_hyphenated_words [("ab".data, (0 : Nat)), ("cd".data, 1)]).length
         + 1 ∧
     ∀ m ∈ pageMatches "d".data 1
        (⟨.ok "ab cd".data, .ok [("ab".data, (0 : Nat)), ("cd".data, 1)]⟩)
        (normalize "-".data) false, m.rects = []) :=
  ⟨by decide,
   c9_empty_normalized_term "d".data 1 "ab cd".data
     [("ab".data, (0 : Nat)), ("cd".data, 1)] "-".data false (by decide)⟩

/-- CLAIM C5: the snippet carried by every match of a page is the raw page
text sliced at `[max(0, index - 30), index + len(term) + 30)` — where
`index` is the position of the first occurrence of the normalized term in
the *normalized* page text, applied to the *raw* text — wrapped in ellipses,
with line breaks replaced by spaces (`" ".join(snippet.splitlines())`).
Truncated `Nat` subtraction renders Python's `max(0, index - 30)`. -/
theorem c5_snippet_formula {α : Type} (srcName : List Char) (pageNo : Nat)
    (pg : PageData α) (term : List Char) (em : Bool) (index : Nat)
    (m : MatchRec α)
    (hfind : strFind (normalize (get_pdf_text pg)) term = some index)
    (hm : m ∈ pageMatches srcName pageNo pg term em) :
    m.snippet = joinSpace (pySplitlines ("...".data ++
      (((get_pdf_text pg).drop (index - 30)).take
        ((index + term.length + 30) - (index - 30))) ++ "...".data)) := by
  obtain ⟨index', ws, hfind', hws, i, _, hrec⟩ :=
    mem_pageMatches_elim _ _ _ _ _ _ hm
  have : index' = index := by
    rw [hfind] at hfind'
    exact (Option.some.injEq _ _).mp hfind'.symm
  subst this
  subst hrec
  rfl

/-- Witness for C5 on a page whose raw text differs from its normalized
text (a hyphen and a line break are removed by normalization), showing the
normalized-text index applied to the raw text. -/
theorem c5_snippet_formula_witness :
    strFind (normalize (get_pdf_text
        (⟨.ok "zz-\nkitap var".data, .ok [("kitap".data, (0 : Nat))]⟩ :
          PageData Nat))) (normalize "kitap".data) = some 2 ∧
    (⟨"d".data, 1, [0], "...zz- kitap var...".data⟩ : MatchRec Nat) ∈
      pageMatches "d".data 1
        (⟨.ok "zz-\nkitap var".data, .ok [("kitap".data, (0 : Nat))]⟩)
        (normalize "kitap".data) false ∧
    (⟨"d".data, 1, [0], "...zz- kitap var...".data⟩ : MatchRec Nat).snippet =
      joinSpace (pySplitlines ("...".data ++
        ((("zz-\nkitap var".data).drop (2 - 30)).take
          ((2 + (normalize "kitap".data).length + 30) - (2 - 30))) ++
        "...".data)) :=
  ⟨by decide, by decide,
   c5_snippet_formula "d".data 1
     (⟨.ok "zz-\nkitap var".data, .ok [("kitap".data, (0 : Nat))]⟩)
     (normalize "kitap".data) false 2
     ⟨"d".data, 1, [0], "...zz- kitap var...".data⟩
     (by decide) (by decide)⟩

theorem foldl_removeChar_nil (hs : List Char) : hs.foldl removeChar [] = [] := by
  induction hs with
  | nil => rfl
  | cons h t ih => simpa [removeChar] using ih

/-- CLAIM C10: the first filtering step of `normalize` removes every
character of categories Cf, Cc, Zs and Mn other than the plain space,
before and regardless of all three flags (so `normalize` only ever sees the
pre-filtered text); with `remove_accents = false` a decomposed accent
(base letter + U+0301) still loses its mark while a precomposed accented
letter keeps it, and a non-ASCII space separator or a newline is deleted
outright — not replaced by a space — even with whitespace collapsing
disabled. -/
theorem c10_unconditional_category_filter :
    (∀ (s : List Char) (lc ra cw : Bool),
       normalize s lc ra cw =
         normalize (s.filter (fun c => !removable1 c)) lc ra cw) ∧
    normalize ['e', Char.ofNat 0x301] true false true = ['e'] ∧
    normalize [Char.ofNat 0xE9] false false false = [Char.ofNat 0xE9] ∧
    normalize ['a', Char.ofNat 0xA0, 'b'] true true false = ['a', 'b'] ∧
    normalize ['a', '\n', 'b'] true true false = ['a', 'b'] := by
  refine ⟨?_, by decide, by decide, by decide, by decide⟩
  intro s lc ra cw
  by_cases hs : s = []
  · subst hs; rfl
  · by_cases hf : s.filter (fun c => !removable1 c) = []
    · simp only [normalize, if_neg hs, hf, if_pos rfl, foldl_removeChar_nil]
      cases cw <;> cases ra <;> cases lc <;> rfl
    · have hff : (s.filter (fun c => !removable1 c)).filter
          (fun c => !removable1 c) = s.filter (fun c => !removable1 c) := by
        simp [List.filter_filter]
      simp only [normalize, if_neg hs, if_neg hf, hff]

/-- Counterexample to CLAIM C2 as stated.  On the page whose words are
`["x y", "-"]` (no bonding applies) and with the two-token term `"x y"`,
the term occurs in the normalized page text and the unique window of 2
consecutive word runs satisfies the claim's criterion — the normalization
of the space-joined concatenation of the window's texts equals the
normalized term — yet with `exact_match` set the code emits no match: the
code compares the space-join of the per-word normalizations (`"x y "`,
with a trailing space because `"-"` normalizes to the empty string), not
the normalization of the space-joined window. -/
theorem c2_counterexample :
    pageMatches "d".data 1
      (⟨.ok "x y".data, .ok [("x y".data, (0 : Nat)), ("-".data, 1)]⟩)
      (normalize "x y".data) true = [] ∧
    strFind (normalize "x y".data) (normalize "x y".data) = some 0 ∧
    (pySplit (normalize "x y".data)).length = 2 ∧
    bond_hyphenated_words [("x y".data, (0 : Nat)), ("-".data, 1)] =
      [("x y".data, 0), ("-".data, 1)] ∧
    normalize (joinSpace ["x y".data, "-".data]) = normalize "x y".data ∧
    joinSpace ((["x y".data, "-".data]).map (fun w => normalize w)) =
      "x y ".data := by decide

/-- CLAIM C2, amended: once the normalized term has been found in the
normalized page text, the matcher slides a window of `n` consecutive word
runs over the bonded sequence, where `n` is the token count of the
normalized term, and a window yields a match exactly when the *space-join
of the per-word normalizations* of the window's texts equals the normalized
term (`exact_match`) or contains it as a substring (otherwise) — not, as
the claim put it, the normalization of the space-joined concatenation,
which differs when a window word normalizes to the empty string.  The
spec's example stands: term `"kitap"` matches the window `"kitaplık"` with
`exact_match = false` and not with `exact_match = true`. -/
theorem c2_window_semantics_amended :
    (∀ (α : Type) (srcName : List Char) (pageNo : Nat) (pg : PageData α)
       (term : List Char) (em : Bool) (index : Nat)
       (ws : List (List Char × α)),
       strFind (normalize (get_pdf_text pg)) term = some index →
       pg.words = .ok ws →
       pageMatches srcName pageNo pg term em =
         ((List.range ((bond_hyphenated_words ws).length + 1 -
             (pySplit term).length)).filter (fun i =>
           decide (if em then
             term = joinSpace ((((bond_hyphenated_words ws).drop i).take
               (pySplit term).length).map (fun w => normalize w.1))
           else containsSub (joinSpace ((((bond_hyphenated_words ws).drop
               i).take (pySplit term).length).map (fun w => normalize w.1)))
             term = true))).map (fun i =>
           ⟨srcName, pageNo,
            (((bond_hyphenated_words ws).drop i).take
              (pySplit term).length).map (fun w => w.2),
            joinSpace (pySplitlines ("...".data ++
              (((get_pdf_text pg).drop (index - 30)).take
                ((index + term.length + 30) - (index - 30))) ++
              "...".data))⟩)) ∧
    (pageMatches "d".data 1
       (⟨.ok "kitaplık var".data,
         .ok [("kitaplık".data, (0 : Nat)), ("var".data, 1)]⟩)
       (normalize "kitap".data) false).length = 1 ∧
    pageMatches "d".data 1
      (⟨.ok "kitaplık var".data,
        .ok [("kitaplık".data, (0 : Nat)), ("var".data, 1)]⟩)
      (normalize "kitap".data) true = [] := by
  refine ⟨?_, by decide, by decide⟩
  intro α srcName pageNo pg term em index ws hfind hws
  simp only [pageMatches, hfind, hws]
  exact filterMap_ite_eq_filter_map _ _ _

/-- Witness for the amended C2 on the spec's kitap page. -/
theorem c2_window_semantics_amended_witness :
    strFind (normalize (get_pdf_text
        (⟨.ok "kitaplık var".data,
          .ok [("kitaplık".data, (0 : Nat)), ("var".data, 1)]⟩ :
          PageData Nat))) (normalize "kitap".data) = some 0 ∧
    pageMatches "d".data 1
      (⟨.ok "kitaplık var".data,
        .ok [("kitaplık".data, (0 : Nat)), ("var".data, 1)]⟩)
      (normalize "kitap".data) false =
      ((List.range ((bond_hyphenated_words
          [("kitaplık".data, (0 : Nat)), ("var".data, 1)]).length + 1 -
          (pySplit (normalize "kitap".data)).length)).filter (fun i =>
        decide (if false then
          normalize "kitap".data = joinSpace ((((bond_hyphenated_words
            [("kitaplık".data, (0 : Nat)), ("var".data, 1)]).drop i).take
            (pySplit (normalize "kitap".data)).length).map
            (fun w => normalize w.1))
        else containsSub (joinSpace ((((bond_hyphenated_words
            [("kitaplık".data, (0 : Nat)), ("var".data, 1)]).drop i).take
            (pySplit (normalize "kitap".data)).length).map
            (fun w => normalize w.1)))
          (normalize "kitap".data) = true))).map (fun i =>
        ⟨"d".data, 1,
         (((bond_hyphenated_words
             [("kitaplık".data, (0 : Nat)), ("var".data, 1)]).drop i).take
           (pySplit (normalize "kitap".data)).length).map (fun w => w.2),
         joinSpace (pySplitlines ("...".data ++
           (((get_pdf_text (⟨.ok "kitaplık var".data,
               .ok [("kitaplık".data, (0 : Nat)), ("var".data, 1)]⟩ :
               PageData Nat)).drop (0 - 30)).take
             ((0 + (normalize "kitap".data).length + 30) - (0 - 30))) ++
           "...".data))⟩) :=
  ⟨by decide,
   c2_window_semantics_amended.1 Nat "d".data 1
     (⟨.ok "kitaplık var".data,
       .ok [("kitaplık".data, (0 : Nat)), ("var".data, 1)]⟩)
     (normalize "kitap".data) false 0
     [("kitaplık".data, (0 : Nat)), ("var".data, 1)]
     (by decide) rfl⟩

theorem emitLoop_false {α : Type} (path : List Char) :
    ∀ (ms : List (MatchRec α)) (polls total : Nat) acc,
    emitLoop (fun _ => false) path polls total acc ms =
      (polls + ms.length, total + ms.length,
       acc ++ ms.map (fun m => (path, m.page, m.rects, m.snippet))) := by
  intro ms
  induction ms with
  | nil => intro polls total acc; simp [emitLoop]
  | cons m ms ih =>
    intro polls total acc
    simp only [emitLoop, ih]
    simp only [Bool.false_eq_true, if_false, List.map_cons, List.length_cons,
      Prod.mk.injEq]
    refine ⟨by omega, by omega, by simp⟩
theorem emitLoop_spec {α : Type} (cancel : Nat → Bool) (path : List Char) :
    ∀ (ms : List (MatchRec α)) (polls total : Nat) acc,
    ∃ t u p', emitLoop cancel path polls total acc ms =
        (p', total + t.length, acc ++ t) ∧
      ms.map (fun m => (path, m.page, m.rects, m.snippet)) = t ++ u ∧
      (u = [] ∨ ∃ q, q ≤ p' ∧ cancel q = true) := by
  intro ms
  induction ms with
  | nil =>
    intro polls total acc
    exact ⟨[], [], polls, by simp [emitLoop], by simp, Or.inl rfl⟩
  | cons m ms ih =>
    intro polls total acc
    by_cases hc : cancel polls = true
    · refine ⟨[], (m :: ms).map (fun m => (path, m.page, m.rects, m.snippet)),
        polls + 1, by simp [emitLoop, hc], by simp, Or.inr ⟨polls, by omega, hc⟩⟩
    · obtain ⟨t, u, p', heq, hsplit, hor⟩ :=
        ih (polls + 1) (total + 1)
          (acc ++ [(path, m.page, m.rects, m.snippet)])
      refine ⟨(path, m.page, m.rects, m.snippet) :: t, u, p', ?_, ?_, hor⟩
      · simp only [emitLoop, if_neg hc, heq, List.length_cons, Prod.mk.injEq]
        exact ⟨trivial, by omega, by simp⟩
      · simp [hsplit]
theorem fullStream_cons {α : Type} (pd : List Char × Except Unit (List (PageData α)))
    (rest : List _) (term : List Char) (em : Bool) :
    fullStream (pd :: rest) term em =
      ((search_text_in_pdf pd.1 pd.2 term em).getD []).map
        (fun m => (pd.1, m.page, m.rects, m.snippet)) ++
      fullStream rest term em := by
  simp [fullStream]

theorem runLoop_stop {α : Type} (term : List Char) (em : Bool)
    (cancel : Nat → Bool) (polls total : Nat)
    (acc : List (List Char × Nat × List α × List Char))
    (docs : List (List Char × Except Unit (List (PageData α))))
    (hc : docs = [] ∨ cancel polls = true) :
    runLoop term em cancel polls total acc docs =
      ⟨[finishMsg total], acc, total, false, true⟩ := by
  rcases hc with h | h
  · subst h; rfl
  · cases docs with
    | nil => rfl
    | cons d rest => simp [runLoop, h]

theorem runLoop_spec {α : Type} (term : List Char) (em : Bool)
    (cancel : Nat → Bool)
    (hmono : ∀ i j, i ≤ j → cancel i = true → cancel j = true) :
    ∀ (docs : List (List Char × Except Unit (List (PageData α))))
      (polls total : Nat) acc,
    (∀ pd ∈ docs, (search_text_in_pdf pd.1 pd.2 term em).isSome = true) →
    ∃ t u, runLoop term em cancel polls total acc docs =
        ⟨[finishMsg (total + t.length)], acc ++ t, total + t.length,
         false, true⟩ ∧
      fullStream docs term em = t ++ u := by
  intro docs
  induction docs with
  | nil =>
    intro polls total acc _
    exact ⟨[], [], by simp [runLoop], by simp [fullStream]⟩
  | cons pd rest ih =>
    intro polls total acc hok
    obtain ⟨path, doc⟩ := pd
    by_cases hc : cancel polls = true
    · refine ⟨[], fullStream ((path, doc) :: rest) term em, ?_, by simp⟩
      rw [runLoop_stop _ _ _ _ _ _ _ (Or.inr hc)]
      simp
    · obtain ⟨ms, hms⟩ := Option.isSome_iff_exists.mp
        (hok (path, doc) (List.mem_cons_self _ _))
      obtain ⟨t1, u1, p', hemit, hsplit, hor⟩ :=
        emitLoop_spec cancel path ms (polls + 1) total acc
      have hstep : runLoop term em cancel polls total acc ((path, doc) :: rest) =
          runLoop term em cancel p' (total + t1.length) (acc ++ t1) rest := by
        simp only [runLoop, if_neg hc, hms, hemit]
      rcases hor with hu1 | ⟨q, hq, hcq⟩
      · obtain ⟨t2, u2, hrun, hfull⟩ :=
          ih p' (total + t1.length) (acc ++ t1)
            (fun pd hpd => hok pd (List.mem_cons_of_mem _ hpd))
        refine ⟨t1 ++ t2, u2, ?_, ?_⟩
        · rw [hstep, hrun]
          simp only [RunOut.mk.injEq, List.append_assoc, List.length_append]
          refine ⟨by rw [Nat.add_assoc], trivial, by rw [Nat.add_assoc], trivial, trivial⟩
        · rw [fullStream_cons]
          simp only [hms, Option.getD_some]
          rw [hsplit, hu1, hfull]
          simp
      · have hcp2 : cancel p' = true := hmono q p' hq hcq
        refine ⟨t1, u1 ++ fullStream rest term em, ?_, ?_⟩
        · rw [hstep, runLoop_stop _ _ _ _ _ _ _ (Or.inr hcp2)]
        · rw [fullStream_cons]
          simp only [hms, Option.getD_some]
          rw [hsplit]
          simp
theorem runLoop_false {α : Type} (term : List Char) (em : Bool) :
    ∀ (docs : List (List Char × Except Unit (List (PageData α))))
      (polls total : Nat) acc,
    (∀ pd ∈ docs, (search_text_in_pdf pd.1 pd.2 term em).isSome = true) →
    runLoop term em (fun _ => false) polls total acc docs =
      ⟨[finishMsg (total + (fullStream docs term em).length)],
       acc ++ fullStream docs term em,
       total + (fullStream docs term em).length, false, true⟩ := by
  intro docs
  induction docs with
  | nil =>
    intro polls total acc _
    simp [runLoop, fullStream]
  | cons pd rest ih =>
    intro polls total acc hok
    obtain ⟨path, doc⟩ := pd
    obtain ⟨ms, hms⟩ := Option.isSome_iff_exists.mp
      (hok (path, doc) (List.mem_cons_self _ _))
    have hstep : runLoop term em (fun _ => false) polls total acc
        ((path, doc) :: rest) =
        runLoop term em (fun _ => false) (polls + 1 + ms.length)
          (total + ms.length)
          (acc ++ ms.map (fun m => (path, m.page, m.rects, m.snippet))) rest := by
      simp only [runLoop, Bool.false_eq_true, if_false, hms, emitLoop_false]
    rw [hstep, ih _ _ _ (fun pd hpd => hok pd (List.mem_cons_of_mem _ hpd)),
      fullStream_cons]
    simp only [hms, Option.getD_some, RunOut.mk.injEq, List.append_assoc,
      List.length_append, List.length_map]
    refine ⟨by rw [Nat.add_assoc], trivial, by rw [Nat.add_assoc], trivial, trivial⟩
/-- Counterexample to CLAIM C6 as stated.  Three documents, one match each
on document 1 and 2; the cancellation flag reads `false` at the poll taken
before document 1 (so document 1 is fully scanned and its match found) and
`true` at every later poll — i.e. it was set while document 1 was being
processed, "after document 1" in the claim's sense.  The claim predicts a
result set containing document 1's already-found match and a terminal
status of "cancelled"; the run actually ends with an *empty* result set
(the flag is re-checked before each match is appended, discarding results
already found for the fully scanned document) and with `_finish_search`'s
ordinary completion message, not `cancel_search`'s transient
"İptal edildi.". -/
theorem c6_counterexample :
    (runSearch
        [("a/d1.pdf".data, .ok [⟨.ok "kitap burada".data,
            .ok [("kitap".data, (11 : Nat)), ("burada".data, 12)]⟩]),
         ("a/d2.pdf".data, .ok [⟨.ok "kitap yine".data,
            .ok [("kitap".data, 21), ("yine".data, 22)]⟩]),
         ("a/d3.pdf".data, .ok [⟨.ok "bos".data, .ok [("bos".data, 31)]⟩])]
        "kitap".data false (fun k => decide (1 ≤ k)) []) =
      ⟨[finishMsg 0], [], 0, false, true⟩ ∧
    (fun k => decide (1 ≤ k)) 0 = false ∧
    (search_text_in_pdf "a/d1.pdf".data (.ok [⟨.ok "kitap burada".data,
        .ok [("kitap".data, (11 : Nat)), ("burada".data, 12)]⟩])
        "kitap".data false).map List.length = some 1 ∧
    finishMsg 0 ≠ cancelMsg := by decide

/-- CLAIM C6, amended: the cancellation flag is polled at document
granularity and before each match is appended — not per page (the page loop
of `search_text_in_pdf` never reads it, so all pages of the in-flight
document are still scanned).  For a monotone flag (a `threading.Event` stays
set), once it is observed no further document is searched and no further
match is appended, so the emitted result list is a prefix of the full match
stream; with the flag never set the whole stream is emitted; with the flag
set from the first poll on, nothing is searched.  Every non-crashing run —
cancelled or not — terminates through `_finish_search`, whose completion
message (the running total) is the lasting terminal status; the
"İptal edildi." label written by `cancel_search` is overwritten by it. -/
theorem c6_cancellation_amended :
    (∀ (α : Type) (docs : List (List Char × Except Unit (List (PageData α))))
       (term : List Char) (em : Bool) (cancel : Nat → Bool)
       (res0 : List (List Char × Nat × List α × List Char)),
       (∀ i j, i ≤ j → cancel i = true → cancel j = true) →
       docs ≠ [] →
       (∀ pd ∈ docs, (search_text_in_pdf pd.1 pd.2 term em).isSome = true) →
       ∃ rest, fullStream docs term em =
           (runSearch docs term em cancel res0).results ++ rest ∧
         (runSearch docs term em cancel res0).labels =
           [finishMsg (runSearch docs term em cancel res0).total] ∧
         (runSearch docs term em cancel res0).finished = true ∧
         (runSearch docs term em cancel res0).crashed = false) ∧
    (∀ (α : Type) (docs : List (List Char × Except Unit (List (PageData α))))
       (term : List Char) (em : Bool)
       (res0 : List (List Char × Nat × List α × List Char)),
       docs ≠ [] →
       (∀ pd ∈ docs, (search_text_in_pdf pd.1 pd.2 term em).isSome = true) →
       runSearch docs term em (fun _ => false) res0 =
         ⟨[finishMsg (fullStream docs term em).length],
          fullStream docs term em, (fullStream docs term em).length,
          false, true⟩) ∧
    (∀ (α : Type) (docs : List (List Char × Except Unit (List (PageData α))))
       (term : List Char) (em : Bool)
       (res0 : List (List Char × Nat × List α × List Char)),
       docs ≠ [] →
       runSearch docs term em (fun _ => true) res0 =
         ⟨[finishMsg 0], [], 0, false, true⟩) := by
  refine ⟨?_, ?_, ?_⟩
  · intro α docs term em cancel res0 hmono hne hok
    obtain ⟨d, rest, rfl⟩ := List.exists_cons_of_ne_nil hne
    obtain ⟨t, u, hrun, hfull⟩ := runLoop_spec term em cancel hmono
      (d :: rest) 0 0 [] hok
    have hrs : runSearch (d :: rest) term em cancel res0 =
        runLoop term em cancel 0 0 [] (d :: rest) := rfl
    rw [hrs, hrun]
    exact ⟨u, by simpa using hfull, by simp, rfl, rfl⟩
  · intro α docs term em res0 hne hok
    obtain ⟨d, rest, rfl⟩ := List.exists_cons_of_ne_nil hne
    have hrs : runSearch (d :: rest) term em (fun _ => false) res0 =
        runLoop term em (fun _ => false) 0 0 [] (d :: rest) := rfl
    rw [hrs, runLoop_false term em (d :: rest) 0 0 [] hok]
    simp
  · intro α docs term em res0 hne
    obtain ⟨d, rest, rfl⟩ := List.exists_cons_of_ne_nil hne
    have hrs : runSearch (d :: rest) term em (fun _ => true) res0 =
        runLoop term em (fun _ => true) 0 0 [] (d :: rest) := rfl
    rw [hrs, runLoop_stop _ _ _ _ _ _ _ (Or.inr rfl)]

/-- Witness for the amended C6: an uncancelled two-document run emits the
full match stream, and a run cancelled from the first poll emits nothing. -/
theorem c6_cancellation_amended_witness :
    runSearch
        [("a/d1.pdf".data, .ok [⟨.ok "kitap burada".data,
            .ok [("kitap".data, (11 : Nat)), ("burada".data, 12)]⟩]),
         ("a/d2.pdf".data, .ok [⟨.ok "kitap yine".data,
            .ok [("kitap".data, 21), ("yine".data, 22)]⟩])]
        "kitap".data false (fun _ => false) [] =
      ⟨[finishMsg (fullStream
          [("a/d1.pdf".data, .ok [⟨.ok "kitap burada".data,
              .ok [("kitap".data, (11 : Nat)), ("burada".data, 12)]⟩]),
           ("a/d2.pdf".data, .ok [⟨.ok "kitap yine".data,
              .ok [("kitap".data, 21), ("yine".data, 22)]⟩])]
          "kitap".data false).length],
       fullStream
          [("a/d1.pdf".data, .ok [⟨.ok "kitap burada".data,
              .ok [("kitap".data, (11 : Nat)), ("burada".data, 12)]⟩]),
           ("a/d2.pdf".data, .ok [⟨.ok "kitap yine".data,
              .ok [("kitap".data, 21), ("yine".data, 22)]⟩])]
          "kitap".data false,
       (fullStream
          [("a/d1.pdf".data, .ok [⟨.ok "kitap burada".data,
              .ok [("kitap".data, (11 : Nat)), ("burada".data, 12)]⟩]),
           ("a/d2.pdf".data, .ok [⟨.ok "kitap yine".data,
              .ok [("kitap".data, 21), ("yine".data, 22)]⟩])]
          "kitap".data false).length, false, true⟩ ∧
    runSearch
        [("a/d1.pdf".data, .ok [⟨.ok "kitap burada".data,
            .ok [("kitap".data, (11 : Nat)), ("burada".data, 12)]⟩])]
        "kitap".data false (fun _ => true) [] =
      ⟨[finishMsg 0], [], 0, false, true⟩ :=
  ⟨c6_cancellation_amended.2.1 Nat
     [("a/d1.pdf".data, .ok [⟨.ok "kitap burada".data,
         .ok [("kitap".data, (11 : Nat)), ("burada".data, 12)]⟩]),
      ("a/d2.pdf".data, .ok [⟨.ok "kitap yine".data,
         .ok [("kitap".data, 21), ("yine".data, 22)]⟩])]
     "kitap".data false [] (List.cons_ne_nil _ _) (by decide),
   c6_cancellation_amended.2.2 Nat
     [("a/d1.pdf".data, .ok [⟨.ok "kitap burada".data,
         .ok [("kitap".data, (11 : Nat)), ("burada".data, 12)]⟩])]
     "kitap".data false [] (List.cons_ne_nil _ _)⟩

/-- Counterexample to CLAIM C7 as stated.  A zero-document folder and a
zero-match search both terminate without error with no results, but the
lasting terminal status message is the *same* "Eşleşme bulunamadı." in both
cases: `_run_search` posts the distinguishing no-documents message and then
immediately posts `_finish_search(0)`, whose generic message overwrites it
(the `root.after` queue runs the two writes in order). -/
theorem c7_counterexample :
    (runSearch ([] : List (List Char × Except Unit (List (PageData Nat))))
        "kitap".data false (fun _ => false) []) =
      ⟨[noPdfMsg, finishMsg 0], [], 0, false, true⟩ ∧
    (runSearch [("a/d3.pdf".data, .ok [⟨.ok "bos".data,
        .ok [("bos".data, (31 : Nat))]⟩])]
        "kitap".data false (fun _ => false) []) =
      ⟨[finishMsg 0], [], 0, false, true⟩ ∧
    [noPdfMsg, finishMsg 0].getLast? = [finishMsg 0].getLast? ∧
    noPdfMsg ≠ finishMsg 0 := by decide

/-- CLAIM C7, amended: a zero-document folder and a zero-match search both
terminate without error and append no match records; the zero-document case
posts the distinct "Seçili dizinde herhangi bir PDF dosyası bulunamadı."
message *transiently* before `_finish_search` overwrites the label, so the
two cases are distinguishable only in their label sequences, the lasting
terminal message being "Eşleşme bulunamadı." in both.  (In the
zero-document branch the previous search's `self.results` is not cleared.) -/
theorem c7_terminal_statuses_amended :
    (∀ (α : Type) (term : List Char) (em : Bool) (cancel : Nat → Bool)
       (res0 : List (List Char × Nat × List α × List Char)),
       runSearch ([] : List (List Char × Except Unit (List (PageData α))))
         term em cancel res0 =
         ⟨[noPdfMsg, finishMsg 0], res0, 0, false, true⟩) ∧
    (∀ (α : Type) (docs : List (List Char × Except Unit (List (PageData α))))
       (term : List Char) (em : Bool) (cancel : Nat → Bool)
       (res0 : List (List Char × Nat × List α × List Char)),
       docs ≠ [] →
       (∀ pd ∈ docs, search_text_in_pdf pd.1 pd.2 term em = some []) →
       runSearch docs term em cancel res0 =
         ⟨[finishMsg 0], [], 0, false, true⟩) ∧
    noPdfMsg ≠ finishMsg 0 := by
  refine ⟨fun α term em cancel res0 => rfl, ?_, by decide⟩
  intro α docs term em cancel res0 hne hzero
  obtain ⟨d, rest, rfl⟩ := List.exists_cons_of_ne_nil hne
  have hrs : runSearch (d :: rest) term em cancel res0 =
      runLoop term em cancel 0 0 [] (d :: rest) := rfl
  rw [hrs]
  have : ∀ (docs' : List (List Char × Except Unit (List (PageData α))))
      (polls : Nat),
      (∀ pd ∈ docs', search_text_in_pdf pd.1 pd.2 term em = some []) →
      runLoop term em cancel polls 0 [] docs' =
        ⟨[finishMsg 0], [], 0, false, true⟩ := by
    intro docs'
    induction docs' with
    | nil => intro polls _; rfl
    | cons pd rest ih =>
      intro polls hz
      obtain ⟨path, doc⟩ := pd
      by_cases hc : cancel polls = true
      · exact runLoop_stop _ _ _ _ _ _ _ (Or.inr hc)
      · have hms := hz (path, doc) (List.mem_cons_self _ _)
        have hstep : runLoop term em cancel polls 0 []
            ((path, doc) :: rest) = runLoop term em cancel (polls + 1) 0 [] rest := by
          simp only [runLoop, if_neg hc, hms, emitLoop]
        rw [hstep]
        exact ih (polls + 1) (fun pd hpd => hz pd (List.mem_cons_of_mem _ hpd))
  exact this (d :: rest) 0 hzero

/-- Witness for the amended C7 at a concrete empty folder and a concrete
zero-match document. -/
theorem c7_terminal_statuses_amended_witness :
    runSearch ([] : List (List Char × Except Unit (List (PageData Nat))))
      "kitap".data false (fun _ => false) [] =
      ⟨[noPdfMsg, finishMsg 0], [], 0, false, true⟩ ∧
    runSearch [("a/d3.pdf".data, .ok [⟨.ok "bos".data,
        .ok [("bos".data, (31 : Nat))]⟩])]
      "kitap".data false (fun _ => false) [] =
      ⟨[finishMsg 0], [], 0, false, true⟩ :=
  ⟨c7_terminal_statuses_amended.1 Nat "kitap".data false (fun _ => false) [],
   c7_terminal_statuses_amended.2.1 Nat
     [("a/d3.pdf".data, .ok [⟨.ok "bos".data,
         .ok [("bos".data, (31 : Nat))]⟩])]
     "kitap".data false (fun _ => false) [] (List.cons_ne_nil _ _) (by decide)⟩

/-- CLAIM C8 concerns error containment.  Page-level containment holds: a
page whose text extraction raises contributes no matches (`get_pdf_text`
catches and returns `""`), a page whose words extraction raises is skipped,
and later pages of the same document are still searched (third conjunct).
Document-level containment is broken: when opening a document raises, the
`@handle_exception` wrapper swallows the exception and `search_text_in_pdf`
returns `None`; `_run_search`'s `try` only guards the call itself, so the
subsequent `for ... in matches` raises `TypeError` outside any handler, the
worker thread dies, the remaining documents are never searched and
`_finish_search` never runs (first conjunct) — even though the next
document alone would have produced a match (second conjunct). -/
theorem c8_document_error_aborts_session :
    runSearch
        [("bad.pdf".data, (.error () : Except Unit (List (PageData Nat)))),
         ("a/d1.pdf".data, .ok [⟨.ok "kitap burada".data,
            .ok [("kitap".data, 11), ("burada".data, 12)]⟩])]
        "kitap".data false (fun _ => false) [] =
      ⟨[], [], 0, true, false⟩ ∧
    search_text_in_pdf "a/d1.pdf".data
      (.ok [⟨.ok "kitap burada".data,
        .ok [("kitap".data, (11 : Nat)), ("burada".data, 12)]⟩])
      "kitap".data false =
      some [⟨"d1.pdf".data, 1, [11], "...kitap burada...".data⟩] ∧
    search_text_in_pdf "x.pdf".data
      (.ok [⟨.error (), .error ()⟩,
            ⟨.ok "kitap".data, .ok [("kitap".data, (5 : Nat))]⟩])
      "kitap".data false =
      some [⟨"x.pdf".data, 2, [5], "...kitap...".data⟩] := by decide

/-! Machinery for claim C1 (idempotence of `normalize`).  The second
application of `normalize` must undo nothing: its category filter, hyphen
deletions, regex, whitespace collapse, NFKD pass and lowercasing must leave
`normalize x` unchanged except that NFKD decomposes the Arabic presentation
forms introduced by `reshape`, which `reshape` then reintroduces
identically.  The lemmas below track the character-level invariants of each
pipeline stage. -/

/-- The base character left over when NFKD-decomposing `c` and dropping the
combining marks (for the characters reaching the accent-removal step this
is a single character). -/
def nfkdBase (c : Char) : Char :=
  match (nfkdChar c).filter (fun d => !isCombining d) with
  | [d] => d
  | _ => c

/-- Character quality after the accent-removal step: not removed by the
category filter, no combining mark, NFKD-fixed, and white only if a plain
space. -/
def goodD (c : Char) : Bool :=
  !removable1 c && !isCombining c && (nfkdChar c == [c]) &&
  (!pyWhite c || c == ' ')

/-- Character quality after the lowercasing step: `goodD` plus
lowercase-fixedness. -/
def goodW (c : Char) : Bool := goodD c && (lowerChar c == c)

theorem find?_pairs_elim {β : Type} (l : List (Char × β)) (c : Char) :
    l.find? (fun p => p.1 == c) = none ∨
    ∃ b, l.find? (fun p => p.1 == c) = some (c, b) ∧ (c, b) ∈ l := by
  cases hf : l.find? (fun p => p.1 == c) with
  | none => exact Or.inl rfl
  | some p =>
    have h1 := List.find?_some hf
    have h2 : p ∈ l := List.mem_of_find?_eq_some hf
    obtain ⟨p1, p2⟩ := p
    have : p1 = c := by simpa using h1
    subst this
    exact Or.inr ⟨p2, rfl, h2⟩

theorem comb_removable (c : Char) (h : isCombining c = true) :
    removable1 c = true := by
  rcases find?_pairs_elim combiningPairs c with hf | ⟨b, hf, hmem⟩
  · simp [isCombining, hf] at h
  · have : ∀ p ∈ combiningPairs, removable1 p.1 = true := by decide
    exact this (c, b) hmem

theorem white_space_or_removable (c : Char) (h : pyWhite c = true) :
    c = ' ' ∨ removable1 c = true := by
  simp only [pyWhite, Bool.or_eq_true, beq_iff_eq] at h
  rcases h with ((((((h | h) | h) | h) | h) | h) | h) <;> subst h
  · exact Or.inl rfl
  all_goals exact Or.inr (by decide)

/-- The base characters of a single NFKD decomposition after the
`combining`-based filter. -/
def nfkdBases (c : Char) : List Char :=
  (nfkdChar c).filter (fun d => !isCombining d)

/-- True when the filtered decomposition of `c` is a single character, so
that the accent-removal step turns `c` into exactly one character. -/
def nfkdSingle (c : Char) : Bool := (nfkdBases c).length == 1

theorem deaccent_eq_flatMap (s : List Char) :
    deaccent s = s.flatMap nfkdBases := by
  induction s with
  | nil => rfl
  | cons c rest ih =>
    simp only [deaccent, List.flatMap_cons, List.filter_append] at ih ⊢
    rw [ih]
    rfl

theorem nfkdBases_single (c : Char) (h : nfkdSingle c = true) :
    nfkdBases c = [nfkdBase c] := by
  simp only [nfkdSingle, beq_iff_eq] at h
  obtain ⟨d, hd⟩ := List.length_eq_one.mp h
  have hd2 : (nfkdChar c).filter (fun d => !isCombining d) = [d] := hd
  simp only [nfkdBases, nfkdBase, hd2]

theorem nfkdSingle_of_fixed (c : Char) (hn : nfkdChar c = [c])
    (hc : isCombining c = false) : nfkdSingle c = true := by
  simp [nfkdSingle, nfkdBases, hn, List.filter, hc]

theorem flatMap_bases_eq_map (s : List Char) :
    (∀ c ∈ s, nfkdSingle c = true) → s.flatMap nfkdBases = s.map nfkdBase := by
  induction s with
  | nil => intro _; rfl
  | cons c rest ih =>
    intro h
    rw [List.flatMap_cons, nfkdBases_single c (h c (List.mem_cons_self _ _)),
      ih (fun d hd => h d (List.mem_cons_of_mem _ hd)), List.map_cons]
    rfl

theorem deaccent_eq_map (s : List Char) (h : ∀ c ∈ s, nfkdSingle c = true) :
    deaccent s = s.map nfkdBase :=
  (deaccent_eq_flatMap s).trans (flatMap_bases_eq_map s h)

theorem nfkdBase_fixed (c : Char) (hn : nfkdChar c = [c])
    (hc : isCombining c = false) : nfkdBase c = c := by
  simp [nfkdBase, hn, List.filter, hc]

/-- The characters produced by the accent-removal step from a character
whose whitespace is at most a plain space: no combining mark survives the
filter, every survivor is NFKD-fixed, and the only whitespace survivor is
the plain space (possibly introduced by a spacing-clone decomposition such
as U+02DA).  Removability is *not* guaranteed: U+0E33 contributes U+0E4D,
a class-0 Mn mark that the next pass's category filter deletes. -/
theorem nfkdBases_parts (c : Char) (hw : pyWhite c = true → c = ' ') :
    ∀ d ∈ nfkdBases c, isCombining d = false ∧ nfkdChar d = [d] ∧
      (pyWhite d = true → d = ' ') := by
  intro d hd
  rcases find?_pairs_elim nfkdPairs c with hf | ⟨b, hf, hmem⟩
  · have hch : nfkdChar c = [c] := by simp [nfkdChar, hf]
    simp only [nfkdBases, hch] at hd
    by_cases hcc : isCombining c = true
    · simp [List.filter, hcc] at hd
    · have hcc2 : isCombining c = false := by simpa using hcc
      rw [List.filter_cons, List.filter_nil] at hd
      rw [hcc2] at hd
      simp only [Bool.not_false, if_true] at hd
      have : d = c := by simpa using hd
      subst this
      exact ⟨hcc2, hch, hw⟩
  · have hch : nfkdChar c = b := by simp [nfkdChar, hf]
    have hall : ∀ p ∈ nfkdPairs,
        ∀ d ∈ p.2.filter (fun e => !isCombining e),
          isCombining d = false ∧ nfkdChar d = [d] ∧
          (pyWhite d = true → d = ' ') := by decide
    exact hall (c, b) hmem d (by simpa [nfkdBases, hch] using hd)

/-- Lowercasing preserves the `nfkdBases_parts` facts and is idempotent. -/
theorem lowerChar_parts (c : Char) (hc : isCombining c = false)
    (hn : nfkdChar c = [c]) (hw : pyWhite c = true → c = ' ') :
    isCombining (lowerChar c) = false ∧
    nfkdChar (lowerChar c) = [lowerChar c] ∧
    (pyWhite (lowerChar c) = true → lowerChar c = ' ') ∧
    lowerChar (lowerChar c) = lowerChar c := by
  rcases find?_pairs_elim lowerPairs c with hf | ⟨b, hf, hmem⟩
  · have hlc : lowerChar c = c := by simp [lowerChar, hf]
    rw [hlc]
    exact ⟨hc, hn, hw, hlc⟩
  · have hlc : lowerChar c = b := by simp [lowerChar, hf]
    have hall : ∀ p ∈ lowerPairs, nfkdChar p.1 = [p.1] →
        isCombining p.2 = false ∧ nfkdChar p.2 = [p.2] ∧
        pyWhite p.2 = false ∧ lowerChar p.2 = p.2 := by decide
    replace hall : isCombining b = false ∧ nfkdChar b = [b] ∧
        pyWhite b = false ∧ lowerChar b = b := hall (c, b) hmem hn
    rw [hlc]
    refine ⟨hall.1, hall.2.1, ?_, hall.2.2.2⟩
    intro hpw
    rw [hall.2.2.1] at hpw
    cases hpw

theorem goodW_parts (c : Char) (h : goodW c = true) :
    removable1 c = false ∧ isCombining c = false ∧ nfkdChar c = [c] ∧
    (pyWhite c = true → c = ' ') ∧ lowerChar c = c := by
  simp only [goodW, goodD, Bool.and_eq_true, Bool.not_eq_true', beq_iff_eq,
    Bool.or_eq_true] at h
  obtain ⟨⟨⟨⟨hr, hc⟩, hn⟩, hw⟩, hl⟩ := h
  refine ⟨hr, hc, hn, fun hpw => ?_, hl⟩
  rcases hw with h | h
  · rw [hpw] at h; cases h
  · exact h

theorem arabJoin_cases (c : Char) (k : Bool) (h : arabJoin c = some k) :
    c = Char.ofNat 0x628 ∨ c = Char.ofNat 0x627 := by
  rcases find?_pairs_elim arabPairs c with hf | ⟨b, hf, hmem⟩
  · simp [arabJoin, hf] at h
  · have hall : ∀ p ∈ arabPairs,
        p.1 = Char.ofNat 0x628 ∨ p.1 = Char.ofNat 0x627 := by decide
    exact hall (c, b) hmem

theorem reshapeGo_chars (s : List Char) :
    ∀ b, (∀ c ∈ s, goodW c = true) →
    ∀ e ∈ reshapeGo b s, removable1 e = false ∧ isCombining e = false ∧
      (pyWhite e = true → e = ' ') := by
  induction s with
  | nil => intro b _ e he; cases he
  | cons c rest ih =>
    intro b hgood e he
    have hc := goodW_parts c (hgood c (List.mem_cons_self _ _))
    have hrest : ∀ c ∈ rest, goodW c = true :=
      fun c hc => hgood c (List.mem_cons_of_mem _ hc)
    simp only [reshapeGo] at he
    cases hj : arabJoin c with
    | none =>
      rw [hj] at he
      rcases List.mem_cons.mp he with rfl | he
      · exact ⟨hc.1, hc.2.1, hc.2.2.2.1⟩
      · exact ih false hrest e he
    | some dual =>
      rw [hj] at he
      rcases List.mem_cons.mp he with rfl | he
      · rcases arabJoin_cases c dual hj with h | h <;> subst h <;>
          exact (by decide : ∀ jp jn : Bool,
            removable1 (arabForm _ jp jn) = false ∧
            isCombining (arabForm _ jp jn) = false ∧
            (pyWhite (arabForm _ jp jn) = true → arabForm _ jp jn = ' ')) _ _
      · exact ih dual hrest e he

theorem reshapeGo_unmap (s : List Char) :
    ∀ b, (∀ c ∈ s, goodW c = true) →
    (reshapeGo b s).map nfkdBase = s := by
  induction s with
  | nil => intro b _; rfl
  | cons c rest ih =>
    intro b hgood
    have hc := goodW_parts c (hgood c (List.mem_cons_self _ _))
    have hrest : ∀ c ∈ rest, goodW c = true :=
      fun c hc => hgood c (List.mem_cons_of_mem _ hc)
    simp only [reshapeGo]
    cases hj : arabJoin c with
    | none =>
      simp only [List.map_cons, ih false hrest]
      rw [nfkdBase_fixed c hc.2.2.1 hc.2.1]
    | some dual =>
      simp only [List.map_cons, ih dual hrest]
      congr 1
      rcases arabJoin_cases c dual hj with h | h <;> subst h <;>
        exact (by decide :
          ∀ jp jn : Bool, nfkdBase (arabForm _ jp jn) = _) _ _

theorem reSubGo_id (fuel : Nat) :
    ∀ s, (∀ c ∈ s, c ≠ '\n') → reSubGo fuel s = s := by
  induction fuel with
  | zero => intro s _; rfl
  | succ n ih =>
    intro s hs
    match s with
    | [] => rfl
    | [c1] =>
      have h1 := hs c1 (by simp)
      simp [reSubGo, h1]
    | [c1, c2] =>
      have h1 := hs c1 (by simp)
      have h2 := hs c2 (by simp)
      simp only [reSubGo]
      rw [if_neg (by rintro ⟨-, h⟩; exact h2 h), if_neg h1,
        ih [c2] (by simpa using h2)]
    | c1 :: c2 :: c3 :: rest =>
      have h1 := hs c1 (by simp)
      have h2 := hs c2 (by simp)
      have h3 := hs c3 (by simp)
      simp only [reSubGo]
      rw [if_neg (by rintro ⟨-, -, h⟩; exact h3 h),
        if_neg (by rintro ⟨-, h⟩; exact h2 h), if_neg h1,
        ih (c2 :: c3 :: rest)
          (fun c hc => hs c (List.mem_cons_of_mem _ hc))]

theorem mem_squeezeGo (s : List Char) :
    ∀ b c, c ∈ squeezeGo b s → c = ' ' ∨ c ∈ s := by
  induction s with
  | nil => intro b c h; cases h
  | cons a rest ih =>
    intro b c h
    simp only [squeezeGo] at h
    by_cases ha : pyWhite a = true
    · rw [if_pos ha] at h
      cases b with
      | true =>
        rcases ih true c h with h | h
        · exact Or.inl h
        · exact Or.inr (List.mem_cons_of_mem _ h)
      | false =>
        rcases List.mem_cons.mp h with rfl | h
        · exact Or.inl rfl
        · rcases ih true c h with h | h
          · exact Or.inl h
          · exact Or.inr (List.mem_cons_of_mem _ h)
    · rw [if_neg ha] at h
      rcases List.mem_cons.mp h with rfl | h
      · exact Or.inr (List.mem_cons_self _ _)
      · rcases ih false c h with h | h
        · exact Or.inl h
        · exact Or.inr (List.mem_cons_of_mem _ h)

theorem squeezeGo_white (s : List Char) :
    ∀ b c, c ∈ squeezeGo b s → pyWhite c = true → c = ' ' := by
  induction s with
  | nil => intro b c h; cases h
  | cons a rest ih =>
    intro b c h hw
    simp only [squeezeGo] at h
    by_cases ha : pyWhite a = true
    · rw [if_pos ha] at h
      cases b with
      | true => exact ih true c h hw
      | false =>
        rcases List.mem_cons.mp h with rfl | h
        · rfl
        · exact ih true c h hw
    · rw [if_neg ha] at h
      rcases List.mem_cons.mp h with rfl | h
      · exact absurd hw (by simp [ha])
      · exact ih false c h hw

/-- No two adjacent spaces (the shape left by whitespace collapsing). -/
def noDblSp (s : List Char) : Prop :=
  List.Chain' (fun a b => ¬(a = ' ' ∧ b = ' ')) s

def noDblSpChk : List Char → Bool
  | a :: b :: rest => !(a == ' ' && b == ' ') && noDblSpChk (b :: rest)
  | _ => true

theorem noDblSp_iff_chk (s : List Char) : noDblSp s ↔ noDblSpChk s = true := by
  induction s with
  | nil => simp [noDblSp, noDblSpChk]
  | cons a t ih =>
    cases t with
    | nil => simp [noDblSp, noDblSpChk]
    | cons b rest =>
      unfold noDblSp at ih ⊢
      rw [List.chain'_cons, noDblSpChk, Bool.and_eq_true, ih]
      simp
      tauto

instance (s : List Char) : Decidable (noDblSp s) :=
  decidable_of_iff _ (noDblSp_iff_chk s).symm

theorem squeezeGo_head (s : List Char) :
    ∀ c, (squeezeGo true s).head? = some c → c ≠ ' ' := by
  induction s with
  | nil => intro c h; cases h
  | cons a rest ih =>
    intro c h
    simp only [squeezeGo] at h
    by_cases ha : pyWhite a = true
    · rw [if_pos ha] at h
      exact ih c h
    · rw [if_neg ha] at h
      have : a = c := by simpa using h
      subst this
      intro hc
      subst hc
      exact ha (by decide)

theorem squeezeGo_noDblSp (s : List Char) :
    ∀ b, noDblSp (squeezeGo b s) := by
  induction s with
  | nil => intro b; exact List.chain'_nil
  | cons a rest ih =>
    intro b
    simp only [squeezeGo]
    by_cases ha : pyWhite a = true
    · rw [if_pos ha]
      cases b with
      | true => exact ih true
      | false =>
        rw [if_neg (by simp)]
        refine List.chain'_cons'.mpr ⟨?_, ih true⟩
        rintro y hy ⟨-, hy2⟩
        exact squeezeGo_head rest y hy hy2
    · rw [if_neg ha]
      refine List.chain'_cons'.mpr ⟨?_, ih false⟩
      rintro y hy ⟨ha2, -⟩
      subst ha2
      exact ha (by decide)

theorem head_dropWhile {p : Char → Bool} (l : List Char) (c : Char)
    (h : (l.dropWhile p).head? = some c) : p c = false := by
  induction l with
  | nil => cases h
  | cons a rest ih =>
    by_cases ha : p a = true
    · rw [List.dropWhile_cons_of_pos ha] at h
      exact ih h
    · rw [List.dropWhile_cons_of_neg ha] at h
      have : a = c := by simpa using h
      subst this
      simpa using ha

theorem getLast_dropWhile {p : Char → Bool} (l : List Char)
    (h : l.dropWhile p ≠ []) : (l.dropWhile p).getLast? = l.getLast? := by
  induction l with
  | nil => simp at h
  | cons a rest ih =>
    by_cases ha : p a = true
    · rw [List.dropWhile_cons_of_pos ha] at h ⊢
      rw [ih h]
      have hrest : rest ≠ [] := by
        intro hr
        subst hr
        simp at h
      obtain ⟨r, rs, rfl⟩ := List.exists_cons_of_ne_nil hrest
      rfl
    · rw [List.dropWhile_cons_of_neg ha]

theorem noDblSp_dropWhile (p : Char → Bool) (l : List Char)
    (h : noDblSp l) : noDblSp (l.dropWhile p) := by
  induction l with
  | nil => exact h
  | cons a rest ih =>
    by_cases ha : p a = true
    · rw [List.dropWhile_cons_of_pos ha]
      exact ih h.tail
    · rw [List.dropWhile_cons_of_neg ha]
      exact h

theorem noDblSp_reverse (l : List Char) (h : noDblSp l) :
    noDblSp l.reverse := by
  rw [noDblSp, List.chain'_reverse]
  exact h.imp (fun a b hab ⟨h1, h2⟩ => hab ⟨h2, h1⟩)

theorem pyStrip_head (s : List Char) (c : Char)
    (h : (pyStrip s).head? = some c) : pyWhite c = false := by
  unfold pyStrip at h
  rw [List.head?_reverse] at h
  by_cases hz : (s.dropWhile pyWhite).reverse.dropWhile pyWhite = []
  · rw [hz] at h; cases h
  · rw [getLast_dropWhile _ hz, List.getLast?_reverse] at h
    exact head_dropWhile _ _ h

theorem pyStrip_last (s : List Char) (c : Char)
    (h : (pyStrip s).getLast? = some c) : pyWhite c = false := by
  unfold pyStrip at h
  rw [List.getLast?_reverse] at h
  exact head_dropWhile _ _ h

theorem mem_pyStrip (s : List Char) (c : Char) (h : c ∈ pyStrip s) :
    c ∈ s := by
  unfold pyStrip at h
  rw [List.mem_reverse] at h
  have h1 := (List.dropWhile_sublist _).mem h
  rw [List.mem_reverse] at h1
  exact (List.dropWhile_sublist _).mem h1

theorem noDblSp_pyStrip (s : List Char) (h : noDblSp s) :
    noDblSp (pyStrip s) :=
  noDblSp_reverse _ (noDblSp_dropWhile _ _
    (noDblSp_reverse _ (noDblSp_dropWhile _ _ h)))

/-- The shape invariants guaranteed by the whitespace-collapse step. -/
theorem collapseWs_props (s : List Char) :
    (∀ c ∈ collapseWs s, pyWhite c = true → c = ' ') ∧
    noDblSp (collapseWs s) ∧
    ((collapseWs s).head? ≠ some ' ') ∧
    ((collapseWs s).getLast? ≠ some ' ') := by
  refine ⟨?_, ?_, ?_, ?_⟩
  · intro c hc
    exact squeezeGo_white s false c (mem_pyStrip _ _ hc)
  · exact noDblSp_pyStrip _ (squeezeGo_noDblSp s false)
  · intro h
    have := pyStrip_head _ _ h
    simp [pyWhite] at this
  · intro h
    have := pyStrip_last _ _ h
    simp [pyWhite] at this

theorem dropWhile_id {p : Char → Bool} (s : List Char)
    (h : ∀ c, s.head? = some c → p c = false) : s.dropWhile p = s := by
  cases s with
  | nil => rfl
  | cons a rest => exact List.dropWhile_cons_of_neg (by simp [h a rfl])

theorem pyStrip_id (s : List Char)
    (hw : ∀ c ∈ s, pyWhite c = true → c = ' ')
    (hh : s.head? ≠ some ' ') (hl : s.getLast? ≠ some ' ') :
    pyStrip s = s := by
  have hwf : ∀ c, s.head? = some c → pyWhite c = false := by
    intro c hc
    cases hpw : pyWhite c with
    | false => rfl
    | true =>
      have : c = ' ' := hw c (by
        cases s with
        | nil => cases hc
        | cons a r =>
          have : a = c := by simpa using hc
          subst this
          exact List.mem_cons_self _ _) hpw
      subst this
      exact absurd hc hh
  have hwl : ∀ c, s.reverse.head? = some c → pyWhite c = false := by
    intro c hc
    rw [List.head?_reverse] at hc
    cases hpw : pyWhite c with
    | false => rfl
    | true =>
      have : c = ' ' := hw c (by
        obtain ⟨hne, hceq⟩ := List.mem_getLast?_eq_getLast hc
        exact hceq ▸ List.getLast_mem hne) hpw
      subst this
      exact absurd hc hl
  unfold pyStrip
  rw [dropWhile_id s hwf, dropWhile_id s.reverse hwl, List.reverse_reverse]

theorem squeezeGo_id (s : List Char) :
    ∀ b, (∀ c ∈ s, pyWhite c = true → c = ' ') → noDblSp s →
    (b = true → s.head? ≠ some ' ') → squeezeGo b s = s := by
  induction s with
  | nil => intro b _ _ _; rfl
  | cons a rest ih =>
    intro b hw hd hb
    simp only [squeezeGo]
    by_cases ha : pyWhite a = true
    · have hasp : a = ' ' := hw a (List.mem_cons_self _ _) ha
      subst hasp
      cases b with
      | true => exact absurd rfl (hb rfl)
      | false =>
        rw [if_pos ha, if_neg (by simp)]
        congr 1
        refine ih true (fun c hc => hw c (List.mem_cons_of_mem _ hc))
          hd.tail (fun _ hhd => ?_)
        cases rest with
        | nil => cases hhd
        | cons r rs =>
          have : r = ' ' := by simpa using hhd
          subst this
          exact (List.chain'_cons'.mp hd).1 ' ' rfl ⟨rfl, rfl⟩
    · rw [if_neg ha]
      congr 1
      exact ih false (fun c hc => hw c (List.mem_cons_of_mem _ hc))
        hd.tail (by simp)

theorem collapseWs_id (s : List Char)
    (hw : ∀ c ∈ s, pyWhite c = true → c = ' ') (hd : noDblSp s)
    (hh : s.head? ≠ some ' ') (hl : s.getLast? ≠ some ' ') :
    collapseWs s = s := by
  unfold collapseWs
  rw [squeezeGo_id s false hw hd (by simp), pyStrip_id s hw hh hl]

theorem mem_removeChar (s : List Char) (h c : Char)
    (hc : c ∈ removeChar s h) : c ∈ s :=
  (List.mem_filter.mp hc).1

theorem removeChar_id (s : List Char) (h : Char)
    (hne : ∀ c ∈ s, c ≠ h) : removeChar s h = s := by
  rw [removeChar, List.filter_eq_self]
  intro c hc
  simpa using hne c hc

theorem mem_foldl_removeChar (hs : List Char) :
    ∀ s c, c ∈ hs.foldl removeChar s → c ∈ s := by
  induction hs with
  | nil => intro s c h; exact h
  | cons a t ih =>
    intro s c h
    exact mem_removeChar s a c (ih (removeChar s a) c h)

theorem foldl_removeChar_id (hs : List Char) :
    ∀ s, (∀ c ∈ s, c ∉ hs) → hs.foldl removeChar s = s := by
  induction hs with
  | nil => intro s _; rfl
  | cons a t ih =>
    intro s hn
    have h1 : removeChar s a = s :=
      removeChar_id s a (fun c hc he => hn c hc (he ▸ List.mem_cons_self _ _))
    simp only [List.foldl_cons, h1]
    exact ih s (fun c hc ha => hn c hc (List.mem_cons_of_mem _ ha))

/-- The pipeline of `normalize` at the default flags, spelled out. -/
theorem normalize_spine (x : List Char) (hx : x ≠ []) :
    normalize x = reshape ((deaccent (collapseWs (reSubLine
      (removeChar (removeChar (removeChar
        (HYPHENS.foldl removeChar (x.filter (fun c => !removable1 c)))
        (Char.ofNat 0xAD)) (Char.ofNat 0xFEFF)) (Char.ofNat 0x200F))))).map
      lowerChar) := by
  simp [normalize, hx]

theorem reSubLine_id (s : List Char) (h : ∀ c ∈ s, c ≠ '\n') :
    reSubLine s = s := reSubGo_id s.length s h

theorem reshape_unmap (w : List Char) (h : ∀ c ∈ w, goodW c = true) :
    (reshape w).map nfkdBase = w := reshapeGo_unmap w false h

theorem reshape_chars (w : List Char) (h : ∀ c ∈ w, goodW c = true) :
    ∀ e ∈ reshape w, removable1 e = false ∧ isCombining e = false ∧
      (pyWhite e = true → e = ' ') := reshapeGo_chars w false h

theorem mem_collapseWs (s : List Char) (c : Char) (h : c ∈ collapseWs s) :
    c = ' ' ∨ c ∈ s :=
  mem_squeezeGo s false c (mem_pyStrip _ c h)

theorem mem_reshapeGo_of_nonarab (s : List Char) :
    ∀ b c, c ∈ s → arabJoin c = none → c ∈ reshapeGo b s := by
  induction s with
  | nil => intro b c h _; cases h
  | cons a rest ih =>
    intro b c hc hj
    simp only [reshapeGo]
    rcases List.mem_cons.mp hc with rfl | hc
    · simp only [hj]
      exact List.mem_cons_self _ _
    · cases hja : arabJoin a with
      | none => exact List.mem_cons_of_mem _ (ih false c hc hj)
      | some dual => exact List.mem_cons_of_mem _ (ih dual c hc hj)

theorem reshapeGo_nfkdSingle (s : List Char) :
    ∀ b, (∀ c ∈ s, goodW c = true) →
    ∀ e ∈ reshapeGo b s, nfkdSingle e = true := by
  induction s with
  | nil => intro b _ e he; cases he
  | cons c rest ih =>
    intro b hgood e he
    have hc := goodW_parts c (hgood c (List.mem_cons_self _ _))
    have hrest : ∀ c ∈ rest, goodW c = true :=
      fun c hc => hgood c (List.mem_cons_of_mem _ hc)
    simp only [reshapeGo] at he
    cases hj : arabJoin c with
    | none =>
      rw [hj] at he
      rcases List.mem_cons.mp he with rfl | he
      · exact nfkdSingle_of_fixed _ hc.2.2.1 hc.2.1
      · exact ih false hrest e he
    | some dual =>
      rw [hj] at he
      rcases List.mem_cons.mp he with rfl | he
      · rcases arabJoin_cases c dual hj with h | h <;> subst h <;>
          exact (by decide : ∀ jp jn : Bool,
            nfkdSingle (arabForm _ jp jn) = true) _ _
      · exact ih dual hrest e he

theorem reshape_nfkdSingle (w : List Char) (h : ∀ c ∈ w, goodW c = true) :
    ∀ e ∈ reshape w, nfkdSingle e = true := reshapeGo_nfkdSingle w false h

/-- The output of `reshape` on a string of `goodW` characters in collapsed
whitespace shape, containing no catalogue hyphen, is a fixed point of
`normalize`: the category filter, the hyphen deletions, the regex and the
whitespace collapse leave it unchanged, the NFKD pass undoes exactly the
reshaping, lowercasing is the identity, and `reshape` restores the same
presentation forms. -/
theorem reshape_fixed_under_normalize (w : List Char)
    (hwgood : ∀ c ∈ w, goodW c = true)
    (hnd : noDblSp (reshape w))
    (hh : (reshape w).head? ≠ some ' ')
    (hl : (reshape w).getLast? ≠ some ' ')
    (hhy : ∀ c ∈ reshape w, c ∉ HYPHENS) :
    normalize (reshape w) = reshape w := by
  have hy1 := reshape_chars w hwgood
  by_cases hy0 : reshape w = []
  · rw [hy0]; rfl
  · rw [normalize_spine _ hy0]
    rw [List.filter_eq_self.mpr (fun c hc => by simp [(hy1 c hc).1])]
    rw [foldl_removeChar_id HYPHENS _ hhy]
    have hnr : ∀ (a : Char), removable1 a = true →
        removeChar (reshape w) a = reshape w := by
      intro a ha
      refine removeChar_id _ _ (fun c hc he => ?_)
      have := (hy1 c hc).1
      rw [he, ha] at this
      cases this
    rw [hnr (Char.ofNat 0xAD) (by decide)]
    rw [hnr (Char.ofNat 0xFEFF) (by decide)]
    rw [hnr (Char.ofNat 0x200F) (by decide)]
    rw [reSubLine_id _ (fun c hc he => by
      have := (hy1 c hc).1
      rw [he] at this
      exact absurd this (by decide))]
    rw [collapseWs_id _ (fun c hc => (hy1 c hc).2.2) hnd hh hl]
    rw [deaccent_eq_map _ (reshape_nfkdSingle w hwgood)]
    rw [reshape_unmap w hwgood]
    rw [(List.map_congr_left (fun c hc =>
      (goodW_parts c (hwgood c hc)).2.2.2.2)).trans (List.map_id w)]

/-- Idempotence for the reSubLine-free spine.  The shape hypotheses are
about the pipeline's output: no catalogue hyphen, no character of the
filtered categories, and collapsed whitespace shape.  Each is genuinely
needed — see `c1_counterexample` for the three inputs that violate exactly
one of them. -/
theorem c1_aux (s3 : List Char)
    (hhy : ∀ c ∈ reshape ((deaccent (collapseWs s3)).map lowerChar),
      c ∉ HYPHENS)
    (hrem : ∀ c ∈ reshape ((deaccent (collapseWs s3)).map lowerChar),
      removable1 c = false)
    (hnd : noDblSp (reshape ((deaccent (collapseWs s3)).map lowerChar)))
    (hh : (reshape ((deaccent (collapseWs s3)).map lowerChar)).head? ≠
      some ' ')
    (hl : (reshape ((deaccent (collapseWs s3)).map lowerChar)).getLast? ≠
      some ' ') :
    normalize (reshape ((deaccent (collapseWs s3)).map lowerChar)) =
      reshape ((deaccent (collapseWs s3)).map lowerChar) := by
  have hzw : ∀ c ∈ collapseWs s3, pyWhite c = true → c = ' ' :=
    (collapseWs_props s3).1
  have hwparts : ∀ c ∈ (deaccent (collapseWs s3)).map lowerChar,
      isCombining c = false ∧ nfkdChar c = [c] ∧
      (pyWhite c = true → c = ' ') ∧ lowerChar c = c := by
    intro c hc
    obtain ⟨d, hd, rfl⟩ := List.mem_map.mp hc
    rw [deaccent_eq_flatMap] at hd
    obtain ⟨e, he, hde⟩ := List.mem_flatMap.mp hd
    have h1 := nfkdBases_parts e (hzw e he) d hde
    exact lowerChar_parts d h1.1 h1.2.1 h1.2.2
  have hwrem : ∀ c ∈ (deaccent (collapseWs s3)).map lowerChar,
      removable1 c = false := by
    intro c hc
    cases hj : arabJoin c with
    | none => exact hrem c (mem_reshapeGo_of_nonarab _ false c hc hj)
    | some k =>
      rcases arabJoin_cases c k hj with h | h <;> subst h <;> decide
  have hwgood : ∀ c ∈ (deaccent (collapseWs s3)).map lowerChar,
      goodW c = true := by
    intro c hc
    have h1 := hwparts c hc
    have h2 := hwrem c hc
    simp only [goodW, goodD, Bool.and_eq_true, Bool.not_eq_true',
      beq_iff_eq, Bool.or_eq_true]
    refine ⟨⟨⟨⟨h2, h1.1⟩, h1.2.1⟩, ?_⟩, h1.2.2.2⟩
    cases hpw : pyWhite c with
    | false => exact Or.inl rfl
    | true => exact Or.inr (h1.2.2.1 hpw)
  exact reshape_fixed_under_normalize _ hwgood hnd hh hl hhy

/-- Counterexamples to CLAIM C1 as stated: `normalize` (default flags) is
not idempotent, and each of the three hypotheses of the amended theorem is
forced by one concrete input.  (i) U+FF0D FULLWIDTH HYPHEN-MINUS survives
the category filter and the catalogue deletions but NFKD-decomposes to the
catalogue hyphen `-`, which the second application deletes.  (ii) U+02DA
RING ABOVE decomposes to a *space* plus a combining ring after the
whitespace collapse has already run, so `normalize` yields `" "`, which the
second application's collapse strips to `""` — no catalogue hyphen is
involved.  (iii) U+0E33 THAI SARA AM decomposes to U+0E4D U+0E32, where
U+0E4D is an Mn mark of combining class 0: the `combining`-based filter
keeps it but the second application's category filter deletes it — no
hyphen and no whitespace is involved. -/
theorem c1_counterexample :
    (normalize [Char.ofNat 0xFF0D] = ['-'] ∧
     normalize (normalize [Char.ofNat 0xFF0D]) = [] ∧
     normalize (normalize [Char.ofNat 0xFF0D]) ≠ normalize [Char.ofNat 0xFF0D] ∧
     '-' ∈ HYPHENS ∧
     (∀ c ∈ normalize [Char.ofNat 0xFF0D], removable1 c = false)) ∧
    (normalize [Char.ofNat 0x2DA] = [' '] ∧
     normalize (normalize [Char.ofNat 0x2DA]) = [] ∧
     normalize (normalize [Char.ofNat 0x2DA]) ≠ normalize [Char.ofNat 0x2DA] ∧
     (normalize [Char.ofNat 0x2DA]).head? = some ' ' ∧
     (∀ c ∈ normalize [Char.ofNat 0x2DA],
        c ∉ HYPHENS ∧ removable1 c = false)) ∧
    (normalize [Char.ofNat 0xE33] = [Char.ofNat 0xE4D, Char.ofNat 0xE32] ∧
     normalize (normalize [Char.ofNat 0xE33]) = [Char.ofNat 0xE32] ∧
     normalize (normalize [Char.ofNat 0xE33]) ≠ normalize [Char.ofNat 0xE33] ∧
     removable1 (Char.ofNat 0xE4D) = true ∧
     (∀ c ∈ normalize [Char.ofNat 0xE33], c ∉ HYPHENS) ∧
     (normalize [Char.ofNat 0xE33]).head? ≠ some ' ' ∧
     (normalize [Char.ofNat 0xE33]).getLast? ≠ some ' ' ∧
     noDblSp (normalize [Char.ofNat 0xE33])) := by decide

set_option maxHeartbeats 1000000 in
/-- CLAIM C1, amended: with the default flags, `normalize` is idempotent on
every string `x` whose normalization (a) contains no hyphen-catalogue
character, (b) contains no character of the filtered categories
Cf/Cc/Zs/Mn other than the plain space, and (c) is in collapsed whitespace
shape (no leading or trailing space, no two adjacent spaces).  Arabic text
is covered: the second application's NFKD pass decomposes the contextual
presentation forms produced by `reshape` back to the base letters, and
`reshape` reintroduces exactly the same forms.  Each hypothesis is forced
by a concrete failure (`c1_counterexample`): a compatibility decomposition
can reintroduce a catalogue hyphen after hyphen deletion (U+FF0D), a space
after whitespace collapse (U+02DA), or a class-0 Mn mark that only the
next pass's category filter removes (U+0E33). -/
theorem c1_normalize_idempotent_amended (x : List Char)
    (hhy : ∀ c ∈ normalize x, c ∉ HYPHENS)
    (hrem : ∀ c ∈ normalize x, removable1 c = false)
    (hnd : noDblSp (normalize x))
    (hh : (normalize x).head? ≠ some ' ')
    (hl : (normalize x).getLast? ≠ some ' ') :
    normalize (normalize x) = normalize x := by
  by_cases hx : x = []
  · subst hx; rfl
  · have hs3 : ∀ c ∈ removeChar (removeChar (removeChar
        (HYPHENS.foldl removeChar (x.filter (fun c => !removable1 c)))
        (Char.ofNat 0xAD)) (Char.ofNat 0xFEFF)) (Char.ofNat 0x200F),
        removable1 c = false := by
      intro c hc
      have h1 := mem_foldl_removeChar HYPHENS _ c
        (mem_removeChar _ _ c (mem_removeChar _ _ c (mem_removeChar _ _ c hc)))
      have := List.of_mem_filter h1
      simpa using this
    have hnl : ∀ c ∈ removeChar (removeChar (removeChar
        (HYPHENS.foldl removeChar (x.filter (fun c => !removable1 c)))
        (Char.ofNat 0xAD)) (Char.ofNat 0xFEFF)) (Char.ofNat 0x200F),
        c ≠ '\n' := by
      intro c hc he
      have := hs3 c hc
      rw [he] at this
      exact absurd this (by decide)
    rw [normalize_spine x hx] at hhy
    rw [normalize_spine x hx] at hrem
    rw [normalize_spine x hx] at hnd
    rw [normalize_spine x hx] at hh
    rw [normalize_spine x hx] at hl
    rw [normalize_spine x hx]
    rw [reSubLine_id _ hnl] at hhy
    rw [reSubLine_id _ hnl] at hrem
    rw [reSubLine_id _ hnl] at hnd
    rw [reSubLine_id _ hnl] at hh
    rw [reSubLine_id _ hnl] at hl
    rw [reSubLine_id _ hnl]
    generalize removeChar (removeChar (removeChar
      (HYPHENS.foldl removeChar (x.filter (fun c => !removable1 c)))
      (Char.ofNat 0xAD)) (Char.ofNat 0xFEFF)) (Char.ofNat 0x200F) = s3
      at hhy hrem hnd hh hl ⊢
    exact c1_aux s3 hhy hrem hnd hh hl

/-- Witness for the amended C1 on a string mixing Latin text, an accent, a
hyphenated line break and Arabic letters that `reshape` maps to contextual
presentation forms; all five shape hypotheses hold of its normalization. -/
theorem c1_normalize_idempotent_amended_witness :
    ((∀ c ∈ normalize ("ki-\ntap é ".data ++
        [Char.ofNat 0x628, Char.ofNat 0x628, ' ',
         Char.ofNat 0x627, Char.ofNat 0x628]), c ∉ HYPHENS) ∧
     (∀ c ∈ normalize ("ki-\ntap é ".data ++
        [Char.ofNat 0x628, Char.ofNat 0x628, ' ',
         Char.ofNat 0x627, Char.ofNat 0x628]), removable1 c = false) ∧
     noDblSp (normalize ("ki-\ntap é ".data ++
        [Char.ofNat 0x628, Char.ofNat 0x628, ' ',
         Char.ofNat 0x627, Char.ofNat 0x628])) ∧
     (normalize ("ki-\ntap é ".data ++
        [Char.ofNat 0x628, Char.ofNat 0x628, ' ',
         Char.ofNat 0x627, Char.ofNat 0x628])).head? ≠ some ' ' ∧
     (normalize ("ki-\ntap é ".data ++
        [Char.ofNat 0x628, Char.ofNat 0x628, ' ',
         Char.ofNat 0x627, Char.ofNat 0x628])).getLast? ≠ some ' ') ∧
    normalize (normalize ("ki-\ntap é ".data ++
        [Char.ofNat 0x628, Char.ofNat 0x628, ' ',
         Char.ofNat 0x627, Char.ofNat 0x628])) =
      normalize ("ki-\ntap é ".data ++
        [Char.ofNat 0x628, Char.ofNat 0x628, ' ',
         Char.ofNat 0x627, Char.ofNat 0x628]) :=
  ⟨⟨by decide, by decide, by decide, by decide, by decide⟩,
   c1_normalize_idempotent_amended
     ("ki-\ntap é ".data ++
       [Char.ofNat 0x628, Char.ofNat 0x628, ' ',
        Char.ofNat 0x627, Char.ofNat 0x628])
     (by decide) (by decide) (by decide) (by decide) (by decide)⟩

end AraBul
